import Mathlib

/-!
# Verification of the `datasize` package

A shallow embedding of `datasize.go` (type `ByteSize`, its canonical text form
and the text parser `UnmarshalText`) together with theorems about the parser
and the printer.

Conventions of the embedding.

* A Go `uint64` is a `Nat` below `2 ^ 64`; every unsigned operation that can
  wrap in Go is written with an explicit `% 2 ^ 64`.
* A Go `byte` is a `Nat` below `256`; a `[]byte` or `string` is a `List Nat`.
* The `goto` labels `Overflow`, `SyntaxError`, `BitsError` of `UnmarshalText`
  are functions building the value written to the receiver and the error.
* `float64` values are non-negative binary fractions `man * 2 ^ exp`; the
  operations the package performs on them (conversion from `uint64`, division,
  addition, conversion to `uint64`, printing with one decimal) are modelled
  exactly, with round-to-nearest-even.
* The panics of the Go runtime (index or slice bound out of range, integer
  division by zero) are explicit in `parseLoopAt` and `UnmarshalTextAt`, which
  are shown to agree with `parseLoop` and `UnmarshalText`.
-/

namespace Datasize

set_option maxRecDepth 100000

/-! ## Constants -/

/-- The type `ByteSize` is a `uint64`: a natural number below `2 ^ 64`. -/
abbrev ByteSize := Nat

def B : ByteSize := 1
def KB : ByteSize := B <<< 10
def MB : ByteSize := KB <<< 10
def GB : ByteSize := MB <<< 10
def TB : ByteSize := GB <<< 10
def PB : ByteSize := TB <<< 10
def EB : ByteSize := PB <<< 10

def fnUnmarshalText : String := "UnmarshalText"
def maxUint64 : Nat := (1 <<< 64) - 1
def cutoff : Nat := maxUint64 / 10

/-- The UTF-8 encoding of the code point `r`. -/
def encodeRune (r : Nat) : List Nat :=
  if r < 0x80 then [r]
  else if r < 0x800 then [0xC0 + r / 64, 0x80 + r % 64]
  else if r < 0x10000 then [0xE0 + r / 4096, 0x80 + r / 64 % 64, 0x80 + r % 64]
  else [0xF0 + r / 262144, 0x80 + r / 4096 % 64, 0x80 + r / 64 % 64, 0x80 + r % 64]

/-- The bytes of a piece of text (Go `[]byte(s)`), as numbers. -/
def bytesOf (s : String) : List Nat := s.toList.flatMap (fun c => encodeRune c.toNat)

/-! ## Errors -/

/-- The three causes an error of `UnmarshalText` can carry: `strconv.ErrRange`,
`strconv.ErrSyntax` and the package variable `ErrBits`. -/
inductive Cause where
  | ErrRange
  | ErrSyntax
  | ErrBits
  deriving DecidableEq, Repr

/-- The record `strconv.NumError`: the failing function, the input, the cause. -/
structure NumError where
  Func : String
  Num : List Nat
  Err : Cause
  deriving DecidableEq, Repr

/-! ## The three floating-point operations of the parser -/

/-- Nearest whole number to `n / d`, ties going to the even neighbour. -/
def roundHalfEven (n d : Nat) : Nat :=
  let q := n / d
  let r := n % d
  if 2 * r < d then q
  else if d < 2 * r then q + 1
  else if q % 2 = 0 then q
  else q + 1

/-- A non-negative `float64`: the finite value `man * 2 ^ exp`, infinity, or
not-a-number. -/
inductive F64 where
  | finite (man : Nat) (exp : Int)
  | inf
  | nan
  deriving DecidableEq, Repr

/-- Worker of `log2`, the recursion bounded by `fuel`. -/
def log2Aux : Nat → Nat → Nat
  | 0, _ => 0
  | fuel + 1, n => if n < 2 then 0 else log2Aux fuel (n / 2) + 1

/-- Integer part of the binary logarithm of `n` (and `0` for `n = 0`). -/
def log2 (n : Nat) : Nat := log2Aux n n

/-- Integer part of the binary logarithm of the positive fraction `n / d`. -/
def floorLog2 (n d : Nat) : Int :=
  let a := log2 n
  let b := log2 d
  if d * 2 ^ a ≤ n * 2 ^ b then (a : Int) - b else (a : Int) - b - 1

/-- The `float64` nearest to the positive fraction `n / d`: a significand of 53
bits, ties to even. The fractions met here lie between `2 ^ (-64)` and
`2 ^ 64`, well inside the exponent range of the format. -/
def F64.round (n d : Nat) : F64 :=
  let e : Int := floorLog2 n d - 52
  F64.finite (roundHalfEven (n * 2 ^ (-e).toNat) (d * 2 ^ e.toNat)) e

/-- Go `float64(x)` for a `uint64` value `x`. -/
def F64.ofUint64 (x : Nat) : F64 :=
  if x = 0 then F64.finite 0 0 else F64.round x 1

/-- Go `x / y` on non-negative `float64` values. -/
def F64.div : F64 → F64 → F64
  | F64.nan, _ => F64.nan
  | _, F64.nan => F64.nan
  | F64.inf, F64.inf => F64.nan
  | F64.inf, F64.finite _ _ => F64.inf
  | F64.finite _ _, F64.inf => F64.finite 0 0
  | F64.finite m1 e1, F64.finite m2 e2 =>
    if m2 = 0 then (if m1 = 0 then F64.nan else F64.inf)
    else if m1 = 0 then F64.finite 0 0
    else F64.round (m1 * 2 ^ e1.toNat * 2 ^ (-e2).toNat) (m2 * 2 ^ e2.toNat * 2 ^ (-e1).toNat)

/-- Go `uint64(f)`: the value truncated to a whole number. When `f` is not
finite or does not fit 64 bits the language leaves the result to the
implementation: `conv` is that implementation-dependent choice. -/
def F64.toUint64 (conv : F64 → Nat) : F64 → Nat
  | F64.finite m e =>
    let v := m * 2 ^ e.toNat / 2 ^ (-e).toNat
    if v < 2 ^ 64 then v else conv (F64.finite m e) % 2 ^ 64
  | f => conv f % 2 ^ 64

/-! ## Library functions on text -/

/-- The six bytes `asciiSpace` of package `strings`: tab, line feed, vertical
tab, form feed, carriage return, space. -/
def isAsciiSpace (c : Nat) : Bool :=
  c = 9 || c = 10 || c = 11 || c = 12 || c = 13 || c = 32

/-- Two bytes that encode a white-space rune: U+0085, U+00A0. -/
def isSpace2 (c d : Nat) : Bool :=
  c = 0xC2 && (d = 0x85 || d = 0xA0)

/-- Three bytes that encode a white-space rune: U+1680, U+2000 to U+200A,
U+2028, U+2029, U+202F, U+205F, U+3000. -/
def isSpace3 (c d e : Nat) : Bool :=
  (c = 0xE1 && d = 0x9A && e = 0x80)
  || (c = 0xE2 && d = 0x80 && ((0x80 ≤ e && e ≤ 0x8A) || e = 0xA8 || e = 0xA9 || e = 0xAF))
  || (c = 0xE2 && d = 0x81 && e = 0x9F)
  || (c = 0xE3 && d = 0x80 && e = 0x80)

/-- Go `strings.TrimLeftFunc(s, unicode.IsSpace)`: drop the white-space runes
at the front. A white-space rune is decoded exactly from its UTF-8 encoding. -/
def trimLeft : List Nat → List Nat
  | [] => []
  | [c] => if isAsciiSpace c then [] else [c]
  | [c, d] =>
    if isAsciiSpace c then trimLeft [d]
    else if isSpace2 c d then []
    else [c, d]
  | c :: d :: e :: s =>
    if isAsciiSpace c then trimLeft (d :: e :: s)
    else if isSpace2 c d then trimLeft (e :: s)
    else if isSpace3 c d e then trimLeft s
    else c :: d :: e :: s

/-- Go `strings.TrimRightFunc(s, unicode.IsSpace)` on the reversed text: drop
the white-space runes at the end, whose encodings are read backwards. -/
def trimRightRev : List Nat → List Nat
  | [] => []
  | [c] => if isAsciiSpace c then [] else [c]
  | [d, c] =>
    if isAsciiSpace d then trimRightRev [c]
    else if isSpace2 c d then []
    else [d, c]
  | e :: d :: c :: s =>
    if isAsciiSpace e then trimRightRev (d :: c :: s)
    else if isSpace2 d e then trimRightRev (c :: s)
    else if isSpace3 c d e then trimRightRev s
    else e :: d :: c :: s

/-- Go `strings.TrimSpace`: the text without leading and trailing white
space, as defined by Unicode. -/
def trimSpace (s : List Nat) : List Nat :=
  (trimRightRev (trimLeft s).reverse).reverse

/-- Go `strings.ToLower`, as far as a comparison of its result with ASCII
text can tell. An ASCII capital becomes its small letter. The only other runes
whose lower case is ASCII are U+212A (Kelvin sign, bytes E2 84 AA, lower case
`k`) and U+0130 (capital I with dot, bytes C4 B0, lower case `i`). The bytes of
any other rune stay as they are, where Go writes the lower case of the rune or
U+FFFD: neither is ASCII. -/
def toLower : List Nat → List Nat
  | [] => []
  | 0xE2 :: 0x84 :: 0xAA :: s => 0x6B :: toLower s
  | 0xC4 :: 0xB0 :: s => 0x69 :: toLower s
  | c :: s => (if 0x41 ≤ c ∧ c ≤ 0x5A then c + 0x20 else c) :: toLower s

/-- Go `fmt.Sprintf("%d", n)` worker: the decimal digits of `n` put in front
of `acc`, the recursion bounded by `fuel`. -/
def formatUintAux : Nat → Nat → List Nat → List Nat
  | 0, _, acc => acc
  | fuel + 1, n, acc =>
    let acc1 := (48 + n % 10) :: acc
    if n / 10 = 0 then acc1 else formatUintAux fuel (n / 10) acc1

/-- Go `fmt.Sprintf("%d", n)` for an unsigned `n`: its decimal digits. -/
def formatUint (n : Nat) : List Nat := formatUintAux (n + 1) n []

/-! ## Printing -/

/-- The method `ByteSize.String`. -/
def String (b : ByteSize) : List Nat :=
  if b = 0 then bytesOf "0B"
  else if b % EB = 0 then formatUint (b / EB) ++ bytesOf "EB"
  else if b % PB = 0 then formatUint (b / PB) ++ bytesOf "PB"
  else if b % TB = 0 then formatUint (b / TB) ++ bytesOf "TB"
  else if b % GB = 0 then formatUint (b / GB) ++ bytesOf "GB"
  else if b % MB = 0 then formatUint (b / MB) ++ bytesOf "MB"
  else if b % KB = 0 then formatUint (b / KB) ++ bytesOf "KB"
  else formatUint b ++ bytesOf "B"

/-- The method `ByteSize.MarshalText`: the text and a nil error. -/
def MarshalText (b : ByteSize) : List Nat × Option NumError :=
  (String b, none)

/-! ## Parsing -/

/-- The local variables of `UnmarshalText` that the scan loop updates. -/
structure Scan where
  val : Nat
  hasDecimal : Bool
  decimal : Nat
  power : Nat
  i : Nat
  deriving DecidableEq, Repr

/-- How the scan loop is left: by one of the two `goto`s it contains, or
normally (end of input or `break ParseLoop`) with the variables it computed. -/
inductive LoopExit where
  | Overflow
  | SyntaxError
  | done (st : Scan)
  deriving DecidableEq, Repr

/-- The loop `ParseLoop` of `UnmarshalText`, run on the bytes `t[i:]` that are
still to be read, from the state `st` (where `st.i = i`). -/
def parseLoop : List Nat → Scan → LoopExit
  | [], st => LoopExit.done st
  | c :: rest, st =>
    if 48 ≤ c ∧ c ≤ 57 then
      if ¬ st.hasDecimal then
        if st.val > cutoff then LoopExit.Overflow
        else
          let c1 := c - 48
          let val := st.val * 10 % 2 ^ 64
          if val > (val + c1) % 2 ^ 64 then LoopExit.Overflow
          else parseLoop rest { st with val := (val + c1) % 2 ^ 64, i := st.i + 1 }
      else
        if st.decimal > cutoff then LoopExit.Overflow
        else
          let c1 := c - 48
          let decimal := st.decimal * 10 % 2 ^ 64
          if decimal > (decimal + c1) % 2 ^ 64 then LoopExit.Overflow
          else parseLoop rest { st with decimal := (decimal + c1) % 2 ^ 64,
                                        power := st.power * 10 % 2 ^ 64, i := st.i + 1 }
    else if c = 46 then
      if st.hasDecimal then LoopExit.SyntaxError
      else parseLoop rest { st with hasDecimal := true, i := st.i + 1 }
    else
      if st.i = 0 then LoopExit.SyntaxError
      else LoopExit.done st

/-- The first `switch unit` of `UnmarshalText`: the six spellings that mean
bits. -/
def isBitUnit (unit : List Nat) : Bool :=
  unit = bytesOf "Kb" || unit = bytesOf "Mb" || unit = bytesOf "Gb"
  || unit = bytesOf "Tb" || unit = bytesOf "Pb" || unit = bytesOf "Eb"

/-- The case labels of the second `switch unit` of `UnmarshalText`: the
multiplier of a lower-case unit name, `none` for the `default` case. -/
def unitMultiplier (unit : List Nat) : Option Nat :=
  if unit = bytesOf "" ∨ unit = bytesOf "b" ∨ unit = bytesOf "byte" ∨ unit = bytesOf "bytes" then
    some 1
  else if unit = bytesOf "k" ∨ unit = bytesOf "kb" ∨ unit = bytesOf "kib" ∨ unit = bytesOf "kilo"
      ∨ unit = bytesOf "kilobyte" ∨ unit = bytesOf "kilobytes" then
    some KB
  else if unit = bytesOf "m" ∨ unit = bytesOf "mb" ∨ unit = bytesOf "mib" ∨ unit = bytesOf "mega"
      ∨ unit = bytesOf "megabyte" ∨ unit = bytesOf "megabytes" then
    some MB
  else if unit = bytesOf "g" ∨ unit = bytesOf "gb" ∨ unit = bytesOf "gib" ∨ unit = bytesOf "giga"
      ∨ unit = bytesOf "gigabyte" ∨ unit = bytesOf "gigabytes" then
    some GB
  else if unit = bytesOf "t" ∨ unit = bytesOf "tb" ∨ unit = bytesOf "tib" ∨ unit = bytesOf "tera"
      ∨ unit = bytesOf "terabyte" ∨ unit = bytesOf "terabytes" then
    some TB
  else if unit = bytesOf "p" ∨ unit = bytesOf "pb" ∨ unit = bytesOf "pib" ∨ unit = bytesOf "peta"
      ∨ unit = bytesOf "petabyte" ∨ unit = bytesOf "petabytes" then
    some PB
  else if unit = bytesOf "e" ∨ unit = bytesOf "eb" ∨ unit = bytesOf "eib" ∨ unit = bytesOf "exa"
      ∨ unit = bytesOf "exabyte" ∨ unit = bytesOf "exabytes" then
    some EB
  else none

/-- Label `Overflow` of `UnmarshalText`. -/
def Overflow (t0 : List Nat) : ByteSize × Option NumError :=
  (maxUint64, some { Func := fnUnmarshalText, Num := t0, Err := Cause.ErrRange })

/-- Label `SyntaxError` of `UnmarshalText`. -/
def SyntaxError (t0 : List Nat) : ByteSize × Option NumError :=
  (0, some { Func := fnUnmarshalText, Num := t0, Err := Cause.ErrSyntax })

/-- Label `BitsError` of `UnmarshalText`. -/
def BitsError (t0 : List Nat) : ByteSize × Option NumError :=
  (0, some { Func := fnUnmarshalText, Num := t0, Err := Cause.ErrBits })

/-- The statement `decimal = uint64(float64(decimal*unitUint64) / float64(power))`. -/
def scaleDecimal (conv : F64 → Nat) (decimal unitUint64 power : Nat) : Nat :=
  F64.toUint64 conv
    (F64.div (F64.ofUint64 (decimal * unitUint64 % 2 ^ 64)) (F64.ofUint64 power))

/-- The method `ByteSize.UnmarshalText`, called on a receiver holding `b` with
the text `t`: the value the receiver holds afterwards and the error returned. -/
def UnmarshalText (conv : F64 → Nat) (_b : ByteSize) (t : List Nat) :
    ByteSize × Option NumError :=
  let t0 := t
  match parseLoop t { val := 0, hasDecimal := false, decimal := 0, power := 1, i := 0 } with
  | LoopExit.Overflow => Overflow t0
  | LoopExit.SyntaxError => SyntaxError t0
  | LoopExit.done st =>
    let unit := trimSpace (t.drop st.i)
    if isBitUnit unit then BitsError t0
    else
      match unitMultiplier (toLower unit) with
      | none => SyntaxError t0
      | some unitUint64 =>
        if unitUint64 ≠ 1 ∧ st.val > maxUint64 / unitUint64 then Overflow t0
        else
          let val := if unitUint64 ≠ 1 then st.val * unitUint64 % 2 ^ 64 else st.val
          let decimal := scaleDecimal conv st.decimal unitUint64 st.power
          if decimal > maxUint64 / unitUint64 then Overflow t0
          else ((val + decimal) % 2 ^ 64, none)

/-- The function `Parse`: `UnmarshalText` on a fresh (zero) `ByteSize`. -/
def Parse (conv : F64 → Nat) (t : List Nat) : ByteSize × Option NumError :=
  UnmarshalText conv 0 t

/-! ## Vocabulary of the statements -/

/-- The bytes of `ds` are decimal digits, `'0'` to `'9'`. -/
def IsDigits (ds : List Nat) : Prop := ∀ c ∈ ds, 48 ≤ c ∧ c ≤ 57

instance (ds : List Nat) : Decidable (IsDigits ds) :=
  inferInstanceAs (Decidable (∀ c ∈ ds, 48 ≤ c ∧ c ≤ 57))

/-- The number read by appending the decimal digits `ds` to the number `v`. -/
def accum (v : Nat) (ds : List Nat) : Nat :=
  ds.foldl (fun a c => a * 10 + (c - 48)) v

/-- The number a string of decimal digits denotes (leading zeros allowed). -/
def digitsValue (ds : List Nat) : Nat := accum 0 ds

/-- The bytes of `w` are ASCII white space. -/
def IsAsciiSpaces (w : List Nat) : Prop := ∀ c ∈ w, isAsciiSpace c = true

instance (w : List Nat) : Decidable (IsAsciiSpaces w) :=
  inferInstanceAs (Decidable (∀ c ∈ w, isAsciiSpace c = true))

/-- The text `rest` ends the scan of a number: it is empty, or its first byte
is neither a decimal digit nor a decimal point. -/
def EndsNumber : List Nat → Prop
  | [] => True
  | c :: _ => ¬ (48 ≤ c ∧ c ≤ 57) ∧ c ≠ 46

instance (rest : List Nat) : Decidable (EndsNumber rest) :=
  match rest with
  | [] => isTrue trivial
  | c :: _ => inferInstanceAs (Decidable (¬ (48 ≤ c ∧ c ≤ 57) ∧ c ≠ 46))

/-- The unit table as the specification lists it (section 4.2, step 5): each
normalized token with its multiplier. -/
def unitTable : List (List Nat × Nat) :=
  [(bytesOf "", 1), (bytesOf "b", 1), (bytesOf "byte", 1), (bytesOf "bytes", 1),
   (bytesOf "k", 2 ^ 10), (bytesOf "kb", 2 ^ 10), (bytesOf "kib", 2 ^ 10),
   (bytesOf "kilo", 2 ^ 10), (bytesOf "kilobyte", 2 ^ 10), (bytesOf "kilobytes", 2 ^ 10),
   (bytesOf "m", 2 ^ 20), (bytesOf "mb", 2 ^ 20), (bytesOf "mib", 2 ^ 20),
   (bytesOf "mega", 2 ^ 20), (bytesOf "megabyte", 2 ^ 20), (bytesOf "megabytes", 2 ^ 20),
   (bytesOf "g", 2 ^ 30), (bytesOf "gb", 2 ^ 30), (bytesOf "gib", 2 ^ 30),
   (bytesOf "giga", 2 ^ 30), (bytesOf "gigabyte", 2 ^ 30), (bytesOf "gigabytes", 2 ^ 30),
   (bytesOf "t", 2 ^ 40), (bytesOf "tb", 2 ^ 40), (bytesOf "tib", 2 ^ 40),
   (bytesOf "tera", 2 ^ 40), (bytesOf "terabyte", 2 ^ 40), (bytesOf "terabytes", 2 ^ 40),
   (bytesOf "p", 2 ^ 50), (bytesOf "pb", 2 ^ 50), (bytesOf "pib", 2 ^ 50),
   (bytesOf "peta", 2 ^ 50), (bytesOf "petabyte", 2 ^ 50), (bytesOf "petabytes", 2 ^ 50),
   (bytesOf "e", 2 ^ 60), (bytesOf "eb", 2 ^ 60), (bytesOf "eib", 2 ^ 60),
   (bytesOf "exa", 2 ^ 60), (bytesOf "exabyte", 2 ^ 60), (bytesOf "exabytes", 2 ^ 60)]

/-- The six unit tokens that mean bits. -/
def bitUnits : List (List Nat) :=
  [bytesOf "Kb", bytesOf "Mb", bytesOf "Gb", bytesOf "Tb", bytesOf "Pb", bytesOf "Eb"]

/-- An optional fractional part: nothing, or a decimal point followed by
decimal digits (possibly none). -/
def IsFraction (frac : List Nat) : Prop :=
  frac = [] ∨ (frac.head? = some 46 ∧ IsDigits frac.tail)

instance (frac : List Nat) : Decidable (IsFraction frac) :=
  inferInstanceAs (Decidable (frac = [] ∨ (frac.head? = some 46 ∧ IsDigits frac.tail)))

/-- The variables of `UnmarshalText` when the scan loop is entered. -/
def scanStart : Scan :=
  { val := 0, hasDecimal := false, decimal := 0, power := 1, i := 0 }

/-- An implementation whose out-of-range conversions to `uint64` give `0`. -/
def convZero : F64 → Nat := fun _ => 0

/-- On every implementation, `Parse` returns `r` for the text `t`. -/
def ParsesTo (t : List Nat) (r : ByteSize × Option NumError) : Prop :=
  ∀ conv : F64 → Nat, Parse conv t = r

/-! ## Human-readable form -/

/-- Go `x + y` on non-negative `float64` values. -/
def F64.add : F64 → F64 → F64
  | F64.nan, _ => F64.nan
  | _, F64.nan => F64.nan
  | F64.inf, _ => F64.inf
  | _, F64.inf => F64.inf
  | F64.finite m1 e1, F64.finite m2 e2 =>
    let n := m1 * 2 ^ e1.toNat * 2 ^ (-e2).toNat + m2 * 2 ^ e2.toNat * 2 ^ (-e1).toNat
    let d := 2 ^ (-e1).toNat * 2 ^ (-e2).toNat
    if n = 0 then F64.finite 0 0 else F64.round n d

/-- Go `fmt.Sprintf("%.1f", f)`: the value rounded to one decimal, ties to
even, written with a decimal point. -/
def formatFloat1 : F64 → List Nat
  | F64.finite m e =>
    let n := roundHalfEven (m * 2 ^ e.toNat * 10) (2 ^ (-e).toNat)
    formatUint (n / 10) ++ [46, 48 + n % 10]
  | F64.inf => bytesOf "+Inf"
  | F64.nan => bytesOf "NaN"

/-- The method `ByteSize.Bytes`. -/
def Bytes (b : ByteSize) : Nat := b

/-- The method `ByteSize.KBytes`. -/
def KBytes (b : ByteSize) : F64 :=
  let v := b / KB
  let r := b % KB
  F64.add (F64.ofUint64 v) (F64.div (F64.ofUint64 r) (F64.ofUint64 KB))

/-- The method `ByteSize.MBytes`. -/
def MBytes (b : ByteSize) : F64 :=
  let v := b / MB
  let r := b % MB
  F64.add (F64.ofUint64 v) (F64.div (F64.ofUint64 r) (F64.ofUint64 MB))

/-- The method `ByteSize.GBytes`. -/
def GBytes (b : ByteSize) : F64 :=
  let v := b / GB
  let r := b % GB
  F64.add (F64.ofUint64 v) (F64.div (F64.ofUint64 r) (F64.ofUint64 GB))

/-- The method `ByteSize.TBytes`. -/
def TBytes (b : ByteSize) : F64 :=
  let v := b / TB
  let r := b % TB
  F64.add (F64.ofUint64 v) (F64.div (F64.ofUint64 r) (F64.ofUint64 TB))

/-- The method `ByteSize.PBytes`. -/
def PBytes (b : ByteSize) : F64 :=
  let v := b / PB
  let r := b % PB
  F64.add (F64.ofUint64 v) (F64.div (F64.ofUint64 r) (F64.ofUint64 PB))

/-- The method `ByteSize.EBytes`. -/
def EBytes (b : ByteSize) : F64 :=
  let v := b / EB
  let r := b % EB
  F64.add (F64.ofUint64 v) (F64.div (F64.ofUint64 r) (F64.ofUint64 EB))

/-- The method `ByteSize.HumanReadable`. -/
def HumanReadable (b : ByteSize) : List Nat :=
  if b > EB then formatFloat1 (EBytes b) ++ bytesOf " EB"
  else if b > PB then formatFloat1 (PBytes b) ++ bytesOf " PB"
  else if b > TB then formatFloat1 (TBytes b) ++ bytesOf " TB"
  else if b > GB then formatFloat1 (GBytes b) ++ bytesOf " GB"
  else if b > MB then formatFloat1 (MBytes b) ++ bytesOf " MB"
  else if b > KB then formatFloat1 (KBytes b) ++ bytesOf " KB"
  else formatUint b ++ bytesOf " B"

/-- The method `ByteSize.HR`. -/
def HR (b : ByteSize) : List Nat := HumanReadable b

/-! ## The convenience wrappers -/

/-- How a call of a `Must` function ends: it returns a quantity, or it panics
with the error it was given. -/
inductive MustResult where
  | value (v : ByteSize)
  | panic (err : NumError)
  deriving DecidableEq, Repr

/-- The function `MustParse`. -/
def MustParse (conv : F64 → Nat) (t : List Nat) : MustResult :=
  match Parse conv t with
  | (v, none) => MustResult.value v
  | (_, some err) => MustResult.panic err

/-- The function `ParseString`. A Go string is the sequence of its bytes, and
`[]byte(s)` copies them. -/
def ParseString (conv : F64 → Nat) (s : List Nat) : ByteSize × Option NumError :=
  Parse conv s

/-- The function `MustParseString`. -/
def MustParseString (conv : F64 → Nat) (s : List Nat) : MustResult :=
  MustParse conv s

/-! ## The scan loop with the checks of the Go runtime -/

/-- How a run ends when the checks of the runtime are counted: normally, by the
panic of an index or of a slice bound out of range, by the panic of an integer
division by zero, or because the allowed number of iterations is used up. -/
inductive Run (α : Type) where
  | ok (a : α)
  | indexOutOfRange
  | sliceOutOfRange
  | divideByZero
  | outOfFuel
  deriving DecidableEq, Repr

/-- The loop `ParseLoop` of `UnmarshalText` as the source writes it: the
condition `i < len(t)`, the read `t[i]` with its bounds check, at most `fuel`
iterations. -/
def parseLoopAt (t : List Nat) : Nat → Scan → Run LoopExit
  | 0, st => if st.i < t.length then Run.outOfFuel else Run.ok (LoopExit.done st)
  | fuel + 1, st =>
    if st.i < t.length then
      match t[st.i]? with
      | none => Run.indexOutOfRange
      | some c =>
        if 48 ≤ c ∧ c ≤ 57 then
          if ¬ st.hasDecimal then
            if st.val > cutoff then Run.ok LoopExit.Overflow
            else
              let c1 := c - 48
              let val := st.val * 10 % 2 ^ 64
              if val > (val + c1) % 2 ^ 64 then Run.ok LoopExit.Overflow
              else parseLoopAt t fuel { st with val := (val + c1) % 2 ^ 64, i := st.i + 1 }
          else
            if st.decimal > cutoff then Run.ok LoopExit.Overflow
            else
              let c1 := c - 48
              let decimal := st.decimal * 10 % 2 ^ 64
              if decimal > (decimal + c1) % 2 ^ 64 then Run.ok LoopExit.Overflow
              else parseLoopAt t fuel { st with decimal := (decimal + c1) % 2 ^ 64,
                                                power := st.power * 10 % 2 ^ 64,
                                                i := st.i + 1 }
        else if c = 46 then
          if st.hasDecimal then Run.ok LoopExit.SyntaxError
          else parseLoopAt t fuel { st with hasDecimal := true, i := st.i + 1 }
        else
          if st.i = 0 then Run.ok LoopExit.SyntaxError
          else Run.ok (LoopExit.done st)
    else Run.ok (LoopExit.done st)

/-- The method `UnmarshalText` with the checks of the runtime: the loop as
`parseLoopAt` runs it with at most `fuel` iterations, the bound check of the
slice `t[i:]`, and the zero check of the divisor in
`maxUint64/unitUint64`. The divisors of the other divisions are the non-zero
constants `10`, `KB`, ..., `EB`. -/
def UnmarshalTextAt (conv : F64 → Nat) (_b : ByteSize) (t : List Nat) (fuel : Nat) :
    Run (ByteSize × Option NumError) :=
  let t0 := t
  match parseLoopAt t fuel { val := 0, hasDecimal := false, decimal := 0, power := 1, i := 0 } with
  | Run.indexOutOfRange => Run.indexOutOfRange
  | Run.sliceOutOfRange => Run.sliceOutOfRange
  | Run.divideByZero => Run.divideByZero
  | Run.outOfFuel => Run.outOfFuel
  | Run.ok LoopExit.Overflow => Run.ok (Overflow t0)
  | Run.ok LoopExit.SyntaxError => Run.ok (SyntaxError t0)
  | Run.ok (LoopExit.done st) =>
    if t.length < st.i then Run.sliceOutOfRange
    else
      let unit := trimSpace (t.drop st.i)
      if isBitUnit unit then Run.ok (BitsError t0)
      else
        match unitMultiplier (toLower unit) with
        | none => Run.ok (SyntaxError t0)
        | some unitUint64 =>
          if unitUint64 ≠ 1 ∧ st.val > maxUint64 / unitUint64 then Run.ok (Overflow t0)
          else
            let val := if unitUint64 ≠ 1 then st.val * unitUint64 % 2 ^ 64 else st.val
            let decimal := scaleDecimal conv st.decimal unitUint64 st.power
            if unitUint64 = 0 then Run.divideByZero
            else if decimal > maxUint64 / unitUint64 then Run.ok (Overflow t0)
            else Run.ok ((val + decimal) % 2 ^ 64, none)

/-! ## More vocabulary of the statements -/

/-- What the caller observes of a result when the text kept in the error is left
aside: the quantity, and the cause of the error if there is one. -/
def outcome (r : ByteSize × Option NumError) : ByteSize × Option Cause :=
  (r.1, r.2.map NumError.Err)

/-- The bytes of `p` are decimal digits or decimal points. -/
def IsNumeric (p : List Nat) : Prop := ∀ c ∈ p, (48 ≤ c ∧ c ≤ 57) ∨ c = 46

instance (p : List Nat) : Decidable (IsNumeric p) :=
  inferInstanceAs (Decidable (∀ c ∈ p, (48 ≤ c ∧ c ≤ 57) ∨ c = 46))

/-- The bytes of `l` are ASCII: below 128. -/
def IsAscii (l : List Nat) : Prop := ∀ c ∈ l, c < 128

instance (l : List Nat) : Decidable (IsAscii l) :=
  inferInstanceAs (Decidable (∀ c ∈ l, c < 128))

/-- The units that `String` prints besides `B`, each with its name, the
largest first. -/
def unitNames : List (Nat × List Nat) :=
  [(EB, bytesOf "EB"), (PB, bytesOf "PB"), (TB, bytesOf "TB"), (GB, bytesOf "GB"),
   (MB, bytesOf "MB"), (KB, bytesOf "KB")]

/-! ## Arithmetic of the digit accumulator -/

theorem accum_nil (v : Nat) : accum v [] = v := rfl

theorem accum_cons (v c : Nat) (ds : List Nat) :
    accum v (c :: ds) = accum (v * 10 + (c - 48)) ds := rfl

theorem accum_append (v : Nat) (xs ys : List Nat) :
    accum v (xs ++ ys) = accum (accum v xs) ys := by
  simp [accum, List.foldl_append]

theorem le_accum (v : Nat) (ds : List Nat) : v ≤ accum v ds := by
  induction ds generalizing v with
  | nil => exact Nat.le_refl v
  | cons c ds ih =>
    rw [accum_cons]
    exact Nat.le_trans (by omega) (ih _)

theorem cutoff_eq : cutoff = 1844674407370955161 := by decide

theorem maxUint64_eq : maxUint64 = 18446744073709551615 := by decide

theorem isDigits_tail {c : Nat} {ds : List Nat} (h : IsDigits (c :: ds)) : IsDigits ds :=
  fun x hx => h x (List.mem_cons_of_mem c hx)

/-! ## The scan loop on a run of digits -/

theorem parseLoop_int_digits (ds rest : List Nat) (v d p i : Nat)
    (hds : IsDigits ds) (hfit : accum v ds < 2 ^ 64) :
    parseLoop (ds ++ rest) ⟨v, false, d, p, i⟩
      = parseLoop rest ⟨accum v ds, false, d, p, i + ds.length⟩ := by
  induction ds generalizing v i with
  | nil => simp [accum_nil]
  | cons c ds ih =>
    have hc := hds c (List.mem_cons_self c ds)
    rw [accum_cons] at hfit
    have hle := le_accum (v * 10 + (c - 48)) ds
    have h1 : ¬ v > cutoff := by rw [cutoff_eq]; omega
    have h2 : v * 10 % 2 ^ 64 = v * 10 := Nat.mod_eq_of_lt (by omega)
    have h3 : (v * 10 + (c - 48)) % 2 ^ 64 = v * 10 + (c - 48) :=
      Nat.mod_eq_of_lt (by omega)
    have h4 : ¬ v * 10 > v * 10 + (c - 48) := by omega
    rw [List.cons_append, parseLoop]
    simp only [hc, and_self, if_true, h1, h2, h3, h4, if_false, Bool.false_eq_true,
      not_false_eq_true]
    rw [ih _ _ (isDigits_tail hds) hfit]
    simp only [accum_cons, List.length_cons]
    congr 2
    omega

theorem parseLoop_int_overflow (ds rest : List Nat) (v d p i : Nat)
    (hds : IsDigits ds) (hv : v < 2 ^ 64) (hbig : 2 ^ 64 ≤ accum v ds) :
    parseLoop (ds ++ rest) ⟨v, false, d, p, i⟩ = LoopExit.Overflow := by
  induction ds generalizing v i with
  | nil => rw [accum_nil] at hbig; omega
  | cons c ds ih =>
    have hc := hds c (List.mem_cons_self c ds)
    rw [accum_cons] at hbig
    rw [List.cons_append, parseLoop]
    simp only [hc, and_self, if_true, Bool.false_eq_true, not_false_eq_true]
    by_cases h1 : v > cutoff
    · simp only [h1, if_true]
    · simp only [h1, if_false]
      have h1b : v ≤ 1844674407370955161 := by rw [cutoff_eq] at h1; omega
      have h2 : v * 10 % 2 ^ 64 = v * 10 := Nat.mod_eq_of_lt (by omega)
      rw [h2]
      by_cases h3 : v * 10 + (c - 48) < 2 ^ 64
      · have h4 : (v * 10 + (c - 48)) % 2 ^ 64 = v * 10 + (c - 48) := Nat.mod_eq_of_lt h3
        have h5 : ¬ v * 10 > v * 10 + (c - 48) := by omega
        simp only [h4, h5, if_false]
        exact ih _ _ (isDigits_tail hds) h3 hbig
      · have h4 : (v * 10 + (c - 48)) % 2 ^ 64 = v * 10 + (c - 48) - 2 ^ 64 := by
          rw [Nat.mod_eq_sub_mod (by omega)]
          exact Nat.mod_eq_of_lt (by omega)
        have h5 : v * 10 > (v * 10 + (c - 48)) % 2 ^ 64 := by rw [h4]; omega
        simp only [h5, if_true]

theorem parseLoop_frac_digits (ds rest : List Nat) (v d p i : Nat)
    (hds : IsDigits ds) (hp : p < 2 ^ 64) (hfit : accum d ds < 2 ^ 64) :
    parseLoop (ds ++ rest) ⟨v, true, d, p, i⟩
      = parseLoop rest ⟨v, true, accum d ds, p * 10 ^ ds.length % 2 ^ 64, i + ds.length⟩ := by
  induction ds generalizing d p i with
  | nil =>
    have h0 : p * 10 ^ ([] : List Nat).length % 2 ^ 64 = p := by
      rw [List.length_nil, Nat.pow_zero, Nat.mul_one]
      exact Nat.mod_eq_of_lt hp
    rw [h0]
    rfl
  | cons c ds ih =>
    have hc := hds c (List.mem_cons_self c ds)
    rw [accum_cons] at hfit
    have hle := le_accum (d * 10 + (c - 48)) ds
    have h1 : ¬ d > cutoff := by rw [cutoff_eq]; omega
    have h2 : d * 10 % 2 ^ 64 = d * 10 := Nat.mod_eq_of_lt (by omega)
    have h3 : (d * 10 + (c - 48)) % 2 ^ 64 = d * 10 + (c - 48) :=
      Nat.mod_eq_of_lt (by omega)
    have h4 : ¬ d * 10 > d * 10 + (c - 48) := by omega
    rw [List.cons_append, parseLoop]
    simp only [hc, and_self, if_true, h1, h2, h3, h4, if_false, not_true_eq_false]
    rw [ih _ _ _ (isDigits_tail hds) (Nat.mod_lt _ (by norm_num)) hfit]
    simp only [accum_cons, List.length_cons]
    have h5 : p * 10 % 2 ^ 64 * 10 ^ ds.length % 2 ^ 64 = p * 10 ^ (ds.length + 1) % 2 ^ 64 := by
      have h6 : p * 10 * 10 ^ ds.length = p * 10 ^ (ds.length + 1) := by ring
      rw [Nat.mod_mul_mod, h6]
    rw [h5]
    congr 2
    omega

theorem parseLoop_frac_overflow (ds rest : List Nat) (v d p i : Nat)
    (hds : IsDigits ds) (hd : d < 2 ^ 64) (hbig : 2 ^ 64 ≤ accum d ds) :
    parseLoop (ds ++ rest) ⟨v, true, d, p, i⟩ = LoopExit.Overflow := by
  induction ds generalizing d p i with
  | nil => rw [accum_nil] at hbig; omega
  | cons c ds ih =>
    have hc := hds c (List.mem_cons_self c ds)
    rw [accum_cons] at hbig
    rw [List.cons_append, parseLoop]
    simp only [hc, and_self, if_true, not_true_eq_false, if_false]
    by_cases h1 : d > cutoff
    · simp only [h1, if_true]
    · simp only [h1, if_false]
      have h1b : d ≤ 1844674407370955161 := by rw [cutoff_eq] at h1; omega
      have h2 : d * 10 % 2 ^ 64 = d * 10 := Nat.mod_eq_of_lt (by omega)
      rw [h2]
      by_cases h3 : d * 10 + (c - 48) < 2 ^ 64
      · have h4 : (d * 10 + (c - 48)) % 2 ^ 64 = d * 10 + (c - 48) := Nat.mod_eq_of_lt h3
        have h5 : ¬ d * 10 > d * 10 + (c - 48) := by omega
        simp only [h4, h5, if_false]
        exact ih _ _ _ (isDigits_tail hds) h3 hbig
      · have h4 : (d * 10 + (c - 48)) % 2 ^ 64 = d * 10 + (c - 48) - 2 ^ 64 := by
          rw [Nat.mod_eq_sub_mod (by omega)]
          exact Nat.mod_eq_of_lt (by omega)
        have h5 : d * 10 > (d * 10 + (c - 48)) % 2 ^ 64 := by rw [h4]; omega
        simp only [h5, if_true]

theorem parseLoop_point (rest : List Nat) (v d p i : Nat) :
    parseLoop (46 :: rest) ⟨v, false, d, p, i⟩ = parseLoop rest ⟨v, true, d, p, i + 1⟩ := by
  rw [parseLoop]
  simp

theorem parseLoop_second_point (rest : List Nat) (v d p i : Nat) :
    parseLoop (46 :: rest) ⟨v, true, d, p, i⟩ = LoopExit.SyntaxError := by
  rw [parseLoop]
  simp

theorem parseLoop_end (rest : List Nat) (st : Scan) (hrest : EndsNumber rest)
    (hi : st.i ≠ 0) : parseLoop rest st = LoopExit.done st := by
  cases rest with
  | nil => rfl
  | cons c rest =>
    have hc : ¬ (48 ≤ c ∧ c ≤ 57) ∧ c ≠ 46 := hrest
    rw [parseLoop]
    simp [hc.1, hc.2, hi]

/-! ## The code after the scan loop -/

theorem UnmarshalText_loop_overflow (conv : F64 → Nat) (b : ByteSize) (t : List Nat)
    (h : parseLoop t scanStart = LoopExit.Overflow) :
    UnmarshalText conv b t = Overflow t := by
  unfold scanStart at h
  simp only [UnmarshalText, h]

theorem UnmarshalText_loop_syntaxError (conv : F64 → Nat) (b : ByteSize) (t : List Nat)
    (h : parseLoop t scanStart = LoopExit.SyntaxError) :
    UnmarshalText conv b t = SyntaxError t := by
  unfold scanStart at h
  simp only [UnmarshalText, h]

theorem UnmarshalText_bits (conv : F64 → Nat) (b : ByteSize) (t : List Nat) (st : Scan)
    (h : parseLoop t scanStart = LoopExit.done st)
    (hb : isBitUnit (trimSpace (t.drop st.i)) = true) :
    UnmarshalText conv b t = BitsError t := by
  unfold scanStart at h
  simp only [UnmarshalText, h, hb, if_true]

theorem UnmarshalText_unknown (conv : F64 → Nat) (b : ByteSize) (t : List Nat) (st : Scan)
    (h : parseLoop t scanStart = LoopExit.done st)
    (hb : isBitUnit (trimSpace (t.drop st.i)) = false)
    (hm : unitMultiplier (toLower (trimSpace (t.drop st.i))) = none) :
    UnmarshalText conv b t = SyntaxError t := by
  unfold scanStart at h
  simp only [UnmarshalText, h, hb, hm, Bool.false_eq_true, if_false]

theorem UnmarshalText_unit_overflow (conv : F64 → Nat) (b : ByteSize) (t : List Nat)
    (st : Scan) (m : Nat) (h : parseLoop t scanStart = LoopExit.done st)
    (hb : isBitUnit (trimSpace (t.drop st.i)) = false)
    (hm : unitMultiplier (toLower (trimSpace (t.drop st.i))) = some m)
    (hbig : m ≠ 1 ∧ st.val > maxUint64 / m) :
    UnmarshalText conv b t = Overflow t := by
  unfold scanStart at h
  simp only [UnmarshalText, h, hb, hm, Bool.false_eq_true, if_false, hbig, ne_eq,
    not_false_eq_true, and_self, if_true]

theorem UnmarshalText_scaled (conv : F64 → Nat) (b : ByteSize) (t : List Nat)
    (st : Scan) (m : Nat) (h : parseLoop t scanStart = LoopExit.done st)
    (hb : isBitUnit (trimSpace (t.drop st.i)) = false)
    (hm : unitMultiplier (toLower (trimSpace (t.drop st.i))) = some m)
    (hfit : ¬ (m ≠ 1 ∧ st.val > maxUint64 / m)) :
    UnmarshalText conv b t =
      if scaleDecimal conv st.decimal m st.power > maxUint64 / m then Overflow t
      else (((if m ≠ 1 then st.val * m % 2 ^ 64 else st.val)
              + scaleDecimal conv st.decimal m st.power) % 2 ^ 64, none) := by
  unfold scanStart at h
  simp only [UnmarshalText, h, hb, hm, Bool.false_eq_true, if_false, hfit]

theorem unitMultiplier_cases {u : List Nat} {m : Nat} (h : unitMultiplier u = some m) :
    m = 1 ∨ m = KB ∨ m = MB ∨ m = GB ∨ m = TB ∨ m = PB ∨ m = EB := by
  unfold unitMultiplier at h
  split_ifs at h <;> simp_all

theorem unit_values : KB = 2 ^ 10 ∧ MB = 2 ^ 20 ∧ GB = 2 ^ 30 ∧ TB = 2 ^ 40 ∧ PB = 2 ^ 50
    ∧ EB = 2 ^ 60 := by decide

theorem unitMultiplier_pos {u : List Nat} {m : Nat} (h : unitMultiplier u = some m) :
    0 < m := by
  rcases unitMultiplier_cases h with h | h | h | h | h | h | h <;> subst h <;> decide

/-- The overflow test of a `case` of the unit switch fires exactly when the
product does not fit 64 bits. -/
theorem unit_overflow_iff {m v : Nat} (hm : 0 < m) (hv : v < 2 ^ 64) :
    (m ≠ 1 ∧ v > maxUint64 / m) ↔ maxUint64 < v * m := by
  rw [maxUint64_eq]
  constructor
  · rintro ⟨_, h⟩
    exact (Nat.div_lt_iff_lt_mul hm).mp h
  · intro h
    refine ⟨?_, (Nat.div_lt_iff_lt_mul hm).mpr h⟩
    intro h1
    rw [h1] at h
    omega

theorem scaleDecimal_zero_one (conv : F64 → Nat) (m : Nat) : scaleDecimal conv 0 m 1 = 0 := by
  unfold scaleDecimal
  rw [Nat.zero_mul, Nat.zero_mod]
  rfl

/-! ## White space and unit tokens -/

theorem trimLeft_space_cons (c : Nat) (s : List Nat) (hc : isAsciiSpace c = true) :
    trimLeft (c :: s) = trimLeft s := by
  match s with
  | [] => simp [trimLeft, hc]
  | [d] => simp [trimLeft, hc]
  | d :: e :: s => simp [trimLeft, hc]

theorem trimLeft_spaces_append (w s : List Nat) (hw : IsAsciiSpaces w) :
    trimLeft (w ++ s) = trimLeft s := by
  induction w with
  | nil => rfl
  | cons c w ih =>
    rw [List.cons_append, trimLeft_space_cons _ _ (hw c (List.mem_cons_self c w))]
    exact ih (fun x hx => hw x (List.mem_cons_of_mem c hx))

theorem trimSpace_spaces_append (w s : List Nat) (hw : IsAsciiSpaces w) :
    trimSpace (w ++ s) = trimSpace s := by
  unfold trimSpace
  rw [trimLeft_spaces_append w s hw]

theorem trimLeft_keep (c : Nat) (s : List Nat) (h1 : isAsciiSpace c = false)
    (h2 : ∀ d, isSpace2 c d = false) (h3 : ∀ d e, isSpace3 c d e = false) :
    trimLeft (c :: s) = c :: s := by
  match s with
  | [] => simp [trimLeft, h1]
  | [d] => simp [trimLeft, h1, h2]
  | d :: e :: s => simp [trimLeft, h1, h2, h3]

theorem trimRightRev_keep (e : Nat) (s : List Nat) (h1 : isAsciiSpace e = false)
    (h2 : ∀ d, isSpace2 d e = false) (h3 : ∀ c d, isSpace3 c d e = false) :
    trimRightRev (e :: s) = e :: s := by
  match s with
  | [] => simp [trimRightRev, h1]
  | [d] => simp [trimRightRev, h1, h2]
  | d :: c :: s => simp [trimRightRev, h1, h2, h3]

theorem unitMultiplier_smallLetters {l : List Nat} {m : Nat}
    (h : unitMultiplier l = some m) : ∀ x ∈ l, 97 ≤ x ∧ x ≤ 122 := by
  unfold unitMultiplier at h
  split_ifs at h with h1 h2 h3 h4 h5 h6 h7
  · rcases h1 with rfl | rfl | rfl | rfl <;> decide
  · rcases h2 with rfl | rfl | rfl | rfl | rfl | rfl <;> decide
  · rcases h3 with rfl | rfl | rfl | rfl | rfl | rfl <;> decide
  · rcases h4 with rfl | rfl | rfl | rfl | rfl | rfl <;> decide
  · rcases h5 with rfl | rfl | rfl | rfl | rfl | rfl <;> decide
  · rcases h6 with rfl | rfl | rfl | rfl | rfl | rfl <;> decide
  · rcases h7 with rfl | rfl | rfl | rfl | rfl | rfl <;> decide

/-- A text whose lower case is made of small letters keeps its first bytes
under `trimLeft` and does not start like a number. -/
theorem letters_front (u : List Nat) (h : ∀ x ∈ toLower u, 97 ≤ x ∧ x ≤ 122) :
    trimLeft u = u ∧ EndsNumber u := by
  match u with
  | [] => exact ⟨rfl, trivial⟩
  | c :: s =>
    by_cases hk : c = 226 ∧ ∃ s1, s = 132 :: 170 :: s1
    · obtain ⟨rfl, s1, rfl⟩ := hk
      refine ⟨by simp [trimLeft, isAsciiSpace, isSpace2, isSpace3], ?_⟩
      show ¬ (48 ≤ 226 ∧ 226 ≤ 57) ∧ 226 ≠ 46
      decide
    · by_cases hi : c = 196 ∧ ∃ s1, s = 176 :: s1
      · obtain ⟨rfl, s1, rfl⟩ := hi
        refine ⟨trimLeft_keep _ _ (by decide) (by simp [isSpace2]) (by simp [isSpace3]), ?_⟩
        show ¬ (48 ≤ 196 ∧ 196 ≤ 57) ∧ 196 ≠ 46
        decide
      · rw [toLower.eq_4 c s (fun s1 h1 h2 => hk ⟨h1, s1, h2⟩)
          (fun s1 h1 h2 => hi ⟨h1, s1, h2⟩)] at h
        have hc := h _ (List.mem_cons_self _ _)
        have hc2 : (65 ≤ c ∧ c ≤ 90) ∨ (97 ≤ c ∧ c ≤ 122) := by
          split_ifs at hc <;> omega
        refine ⟨trimLeft_keep _ _ ?_ ?_ ?_, ?_⟩
        · simp only [isAsciiSpace, Bool.or_eq_false_iff, decide_eq_false_iff_not]
          omega
        · intro d
          simp only [isSpace2, Bool.and_eq_false_imp, decide_eq_true_eq]
          omega
        · intro d e
          have h226 : c ≠ 226 := by omega
          have h225 : c ≠ 225 := by omega
          have h227 : c ≠ 227 := by omega
          simp [isSpace3, h225, h226, h227]
        · show ¬ (48 ≤ c ∧ c ≤ 57) ∧ c ≠ 46
          omega

/-- A text whose lower case is made of small letters ends in a letter or in
the last byte of U+212A or of U+0130. -/
theorem letters_back (u : List Nat) :
    (∀ x ∈ toLower u, 97 ≤ x ∧ x ≤ 122) →
      ∀ e ∈ u.getLast?, (65 ≤ e ∧ e ≤ 90) ∨ (97 ≤ e ∧ e ≤ 122) ∨ e = 170 ∨ e = 176 := by
  induction u using toLower.induct with
  | case1 => intro _ e he; simp at he
  | case2 s ih =>
    intro h e he
    rw [toLower.eq_2] at h
    have hs := ih (fun x hx => h x (List.mem_cons_of_mem _ hx))
    rw [List.getLast?_cons_cons, List.getLast?_cons_cons] at he
    cases s with
    | nil =>
      simp only [List.getLast?_singleton, Option.mem_def, Option.some.injEq] at he
      omega
    | cons a s => rw [List.getLast?_cons_cons] at he; exact hs e he
  | case3 s ih =>
    intro h e he
    rw [toLower.eq_3] at h
    have hs := ih (fun x hx => h x (List.mem_cons_of_mem _ hx))
    rw [List.getLast?_cons_cons] at he
    cases s with
    | nil =>
      simp only [List.getLast?_singleton, Option.mem_def, Option.some.injEq] at he
      omega
    | cons a s => rw [List.getLast?_cons_cons] at he; exact hs e he
  | case4 c s h1 h2 ih =>
    intro h e he
    rw [toLower.eq_4 c s h1 h2] at h
    have hs := ih (fun x hx => h x (List.mem_cons_of_mem _ hx))
    have hc := h _ (List.mem_cons_self _ _)
    cases s with
    | nil =>
      simp only [List.getLast?_singleton, Option.mem_def, Option.some.injEq] at he
      subst he
      split_ifs at hc <;> omega
    | cons a s => rw [List.getLast?_cons_cons] at he; exact hs e he

/-- A unit name of the table, in any mix of cases, has no white space at its
ends and cannot be taken for a part of the number. -/
theorem unit_token_shape {u : List Nat} {m : Nat} (h : unitMultiplier (toLower u) = some m) :
    trimSpace u = u ∧ EndsNumber u := by
  have hl := unitMultiplier_smallLetters h
  obtain ⟨hfront, hends⟩ := letters_front u hl
  refine ⟨?_, hends⟩
  unfold trimSpace
  rw [hfront]
  have hback := letters_back u hl
  rw [← List.head?_reverse] at hback
  match hr : u.reverse with
  | [] =>
    rw [trimRightRev, ← hr, List.reverse_reverse]
  | e :: s =>
    rw [hr] at hback
    have he := hback e (by simp)
    rw [trimRightRev_keep e s, ← hr, List.reverse_reverse]
    · simp only [isAsciiSpace, Bool.or_eq_false_iff, decide_eq_false_iff_not]
      omega
    · intro d
      have h1 : e ≠ 133 := by omega
      have h2 : e ≠ 160 := by omega
      simp [isSpace2, h1, h2]
    · intro c d
      have h1 : e ≠ 128 := by omega
      have h2 : ¬ (128 ≤ e ∧ e ≤ 138) := by omega
      have h3 : e ≠ 168 := by omega
      have h4 : e ≠ 169 := by omega
      have h5 : e ≠ 175 := by omega
      have h6 : e ≠ 159 := by omega
      simp only [isSpace3, h1, h3, h4, h5, h6, decide_False, Bool.and_false, Bool.or_false,
        Bool.false_or, Bool.and_eq_false_imp, decide_eq_true_eq, Bool.and_eq_true,
        decide_eq_false_iff_not, Bool.or_eq_false_iff, not_and, and_imp]
      omega

/-- White space, then a unit name of the table: the unit token is the name,
and the text ends the scan of a number. -/
theorem spaces_unit_shape {w u : List Nat} {m : Nat} (hw : IsAsciiSpaces w)
    (h : unitMultiplier (toLower u) = some m) :
    trimSpace (w ++ u) = u ∧ EndsNumber (w ++ u) := by
  obtain ⟨h1, h2⟩ := unit_token_shape h
  refine ⟨by rw [trimSpace_spaces_append w u hw, h1], ?_⟩
  cases w with
  | nil => exact h2
  | cons c w =>
    have hc := hw _ (List.mem_cons_self _ _)
    simp only [isAsciiSpace, Bool.or_eq_true, decide_eq_true_eq] at hc
    show ¬ (48 ≤ c ∧ c ≤ 57) ∧ c ≠ 46
    omega

/-! ## The scan loop on a whole number -/

theorem parseLoop_number (d frac rest : List Nat) (hd : IsDigits d) (hne : d ≠ [])
    (hv : digitsValue d < 2 ^ 64) (hfr : IsFraction frac)
    (hfv : digitsValue frac.tail < 2 ^ 64) (hrest : EndsNumber rest) :
    parseLoop (d ++ frac ++ rest) scanStart
      = LoopExit.done ⟨digitsValue d, decide (frac ≠ []), digitsValue frac.tail,
          10 ^ frac.tail.length % 2 ^ 64, (d ++ frac).length⟩ := by
  have hlen : d.length ≠ 0 := by
    intro h
    exact hne (List.length_eq_zero.mp h)
  unfold scanStart
  rw [List.append_assoc, parseLoop_int_digits d (frac ++ rest) 0 0 1 0 hd hv]
  rcases hfr with rfl | ⟨hhead, hf⟩
  · rw [List.nil_append, parseLoop_end rest _ hrest (by simpa using hlen)]
    simp [digitsValue, accum_nil]
  · obtain ⟨f, rfl⟩ : ∃ f, frac = 46 :: f := by
      cases frac with
      | nil => simp at hhead
      | cons c f => simp only [List.head?_cons, Option.some.injEq] at hhead; exact ⟨f, by rw [hhead]⟩
    simp only [List.tail_cons] at hf hfv ⊢
    rw [List.cons_append, parseLoop_point,
      parseLoop_frac_digits f rest _ 0 1 _ hf (by norm_num) hfv,
      parseLoop_end rest _ hrest (by simp)]
    simp [digitsValue]
    omega

theorem parseLoop_number_overflow (d rest : List Nat) (hd : IsDigits d)
    (hv : 2 ^ 64 ≤ digitsValue d) :
    parseLoop (d ++ rest) scanStart = LoopExit.Overflow :=
  parseLoop_int_overflow d rest 0 0 1 0 hd (by norm_num) hv

theorem parseLoop_fraction_overflow (d f rest : List Nat) (hd : IsDigits d)
    (hv : digitsValue d < 2 ^ 64) (hf : IsDigits f) (hfv : 2 ^ 64 ≤ digitsValue f) :
    parseLoop (d ++ 46 :: f ++ rest) scanStart = LoopExit.Overflow := by
  unfold scanStart
  rw [List.append_assoc, parseLoop_int_digits d _ 0 0 1 0 hd hv, List.cons_append,
    parseLoop_point,
    parseLoop_frac_overflow f rest _ 0 1 _ hf (by norm_num) hfv]

theorem drop_number (d frac rest : List Nat) :
    (d ++ frac ++ rest).drop (d ++ frac).length = rest :=
  List.drop_left' rfl

/-- A number without fractional part followed by a unit of the table whose
product with it fits 64 bits: the product, and no error. -/
theorem UnmarshalText_integer (conv : F64 → Nat) (b : ByteSize) (d rest : List Nat) (m : Nat)
    (hd : IsDigits d) (hne : d ≠ []) (hrest : EndsNumber rest)
    (hb : isBitUnit (trimSpace rest) = false)
    (hm : unitMultiplier (toLower (trimSpace rest)) = some m)
    (hfit : digitsValue d * m ≤ 2 ^ 64 - 1) :
    UnmarshalText conv b (d ++ rest) = (digitsValue d * m, none) := by
  have hpos := unitMultiplier_pos hm
  have hv : digitsValue d < 2 ^ 64 := by
    have : digitsValue d ≤ digitsValue d * m := Nat.le_mul_of_pos_right _ hpos
    omega
  have hloop := parseLoop_number d [] rest hd hne hv (Or.inl rfl) (by decide) hrest
  simp only [List.append_nil] at hloop
  have hdrop : (d ++ rest).drop d.length = rest := List.drop_left' rfl
  have hno : ¬ (m ≠ 1 ∧ digitsValue d > maxUint64 / m) := by
    rw [unit_overflow_iff hpos hv, maxUint64_eq]
    omega
  rw [UnmarshalText_scaled conv b (d ++ rest) _ m hloop (by rw [hdrop]; exact hb)
    (by rw [hdrop]; exact hm) hno]
  have h0 : scaleDecimal conv (digitsValue ([] : List Nat).tail) m
      (10 ^ ([] : List Nat).tail.length % 2 ^ 64) = 0 := scaleDecimal_zero_one conv m
  simp only [h0, Nat.add_zero]
  have h1 : ¬ (0 > maxUint64 / m) := Nat.not_lt_zero _
  simp only [h1, if_false]
  by_cases h2 : m = 1
  · subst h2
    simp only [ne_eq, not_true_eq_false, if_false, Nat.mul_one]
    rw [Nat.mod_eq_of_lt hv]
  · simp only [ne_eq, h2, not_false_eq_true, if_true, Nat.mod_mod]
    rw [Nat.mod_eq_of_lt (by omega)]

/-! ## The specification's tables and the switches of the code -/

theorem unitMultiplier_of_table {l : List Nat} {m : Nat} (h : (l, m) ∈ unitTable) :
    unitMultiplier l = some m := by
  have hall : ∀ p ∈ unitTable, unitMultiplier p.1 = some p.2 := by decide
  exact hall (l, m) h

theorem table_of_unitMultiplier {l : List Nat} {m : Nat} (h : unitMultiplier l = some m) :
    (l, m) ∈ unitTable := by
  unfold unitMultiplier at h
  split_ifs at h with h1 h2 h3 h4 h5 h6 h7
  · cases h; rcases h1 with rfl | rfl | rfl | rfl <;> decide
  · cases h; rcases h2 with rfl | rfl | rfl | rfl | rfl | rfl <;> decide
  · cases h; rcases h3 with rfl | rfl | rfl | rfl | rfl | rfl <;> decide
  · cases h; rcases h4 with rfl | rfl | rfl | rfl | rfl | rfl <;> decide
  · cases h; rcases h5 with rfl | rfl | rfl | rfl | rfl | rfl <;> decide
  · cases h; rcases h6 with rfl | rfl | rfl | rfl | rfl | rfl <;> decide
  · cases h; rcases h7 with rfl | rfl | rfl | rfl | rfl | rfl <;> decide

theorem isBitUnit_iff (u : List Nat) : isBitUnit u = true ↔ u ∈ bitUnits := by
  simp only [isBitUnit, bitUnits, Bool.or_eq_true, decide_eq_true_eq, List.mem_cons,
    List.mem_singleton, List.not_mem_nil, or_false, or_assoc]

theorem isBitUnit_false_iff (u : List Nat) : isBitUnit u = false ↔ u ∉ bitUnits := by
  rw [← isBitUnit_iff]
  simp

/-! ## Decimal rendering -/

theorem formatUintAux_spec (fuel n : Nat) (acc : List Nat) (h : n < fuel) :
    ∃ ds, formatUintAux fuel n acc = ds ++ acc ∧ IsDigits ds ∧ ds ≠ []
      ∧ ∀ v, accum v ds = v * 10 ^ ds.length + n := by
  induction fuel generalizing n acc with
  | zero => omega
  | succ fuel ih =>
    rw [formatUintAux]
    by_cases h0 : n / 10 = 0
    · simp only [h0, if_true]
      refine ⟨[48 + n % 10], rfl, ?_, by simp, ?_⟩
      · intro c hc
        simp only [List.mem_singleton] at hc
        omega
      · intro v
        simp only [accum_cons, accum_nil, List.length_singleton, Nat.pow_one]
        omega
    · simp only [h0, if_false]
      obtain ⟨ds, h1, h2, _, h4⟩ := ih (n / 10) ((48 + n % 10) :: acc) (by omega)
      refine ⟨ds ++ [48 + n % 10], by rw [h1]; simp, ?_, by simp, ?_⟩
      · intro c hc
        rcases List.mem_append.mp hc with hc | hc
        · exact h2 c hc
        · simp only [List.mem_singleton] at hc
          omega
      · intro v
        rw [accum_append, h4 v, accum_cons, accum_nil, List.length_append,
          List.length_singleton, Nat.pow_succ]
        have h5 : v * (10 ^ ds.length * 10) = v * 10 ^ ds.length * 10 := by ring
        rw [h5]
        omega

/-- The decimal rendering of `n`: non-empty, made of digits, and denoting `n`. -/
theorem formatUint_spec (n : Nat) :
    IsDigits (formatUint n) ∧ formatUint n ≠ [] ∧ digitsValue (formatUint n) = n := by
  obtain ⟨ds, h1, h2, h3, h4⟩ := formatUintAux_spec (n + 1) n [] (Nat.lt_succ_self n)
  have h5 : formatUint n = ds := by rw [formatUint, h1, List.append_nil]
  rw [h5]
  refine ⟨h2, h3, ?_⟩
  rw [digitsValue, h4 0]
  omega

/-- What `String` prints when a unit divides the quantity is read back. -/
theorem UnmarshalText_formatted (conv : F64 → Nat) (b : ByteSize) (q m : Nat)
    (rest : List Nat) (hq : q < 2 ^ 64) (hdvd : q % m = 0) (hrest : EndsNumber rest)
    (hb : isBitUnit (trimSpace rest) = false)
    (hm : unitMultiplier (toLower (trimSpace rest)) = some m) :
    UnmarshalText conv b (formatUint (q / m) ++ rest) = (q, none) := by
  obtain ⟨h1, h2, h3⟩ := formatUint_spec (q / m)
  have hmul : q / m * m = q := Nat.div_mul_cancel (Nat.dvd_of_mod_eq_zero hdvd)
  rw [UnmarshalText_integer conv b _ rest m h1 h2 hrest hb hm (by rw [h3, hmul]; omega),
    h3, hmul]

theorem UnmarshalText_String (conv : F64 → Nat) (b q : ByteSize) (hq : q < 2 ^ 64) :
    UnmarshalText conv b (String q) = (q, none) := by
  unfold String
  split_ifs with h0 h1 h2 h3 h4 h5 h6
  · subst h0
    exact UnmarshalText_integer conv b (bytesOf "0") (bytesOf "B") 1 (by decide) (by decide)
      (by decide) (by decide) (by decide) (by decide)
  · exact UnmarshalText_formatted conv b q EB _ hq h1 (by decide) (by decide) (by decide)
  · exact UnmarshalText_formatted conv b q PB _ hq h2 (by decide) (by decide) (by decide)
  · exact UnmarshalText_formatted conv b q TB _ hq h3 (by decide) (by decide) (by decide)
  · exact UnmarshalText_formatted conv b q GB _ hq h4 (by decide) (by decide) (by decide)
  · exact UnmarshalText_formatted conv b q MB _ hq h5 (by decide) (by decide) (by decide)
  · exact UnmarshalText_formatted conv b q KB _ hq h6 (by decide) (by decide) (by decide)
  · have h := UnmarshalText_formatted conv b q 1 (bytesOf "B") hq (Nat.mod_one q) (by decide)
      (by decide) (by decide)
    rwa [Nat.div_one] at h

/-! ## The results of the three error labels, written out -/

theorem Overflow_eq (t : List Nat) :
    Overflow t = (2 ^ 64 - 1, some ⟨"UnmarshalText", t, Cause.ErrRange⟩) := rfl

theorem SyntaxError_eq (t : List Nat) :
    SyntaxError t = (0, some ⟨"UnmarshalText", t, Cause.ErrSyntax⟩) := rfl

theorem BitsError_eq (t : List Nat) :
    BitsError t = (0, some ⟨"UnmarshalText", t, Cause.ErrBits⟩) := rfl

/-- Evaluation of `UnmarshalText` on an input whose scan succeeds and whose
unit is in the table, step by step. -/
theorem UnmarshalText_eval (conv : F64 → Nat) (b : ByteSize) (t : List Nat) (st : Scan)
    (u : List Nat) (m dec : Nat) (r : ByteSize × Option NumError)
    (hloop : parseLoop t scanStart = LoopExit.done st)
    (hu : trimSpace (t.drop st.i) = u) (hb : isBitUnit u = false)
    (hm : unitMultiplier (toLower u) = some m)
    (hfit : ¬ (m ≠ 1 ∧ st.val > maxUint64 / m))
    (hdec : scaleDecimal conv st.decimal m st.power = dec)
    (hr : (if dec > maxUint64 / m then Overflow t
            else (((if m ≠ 1 then st.val * m % 2 ^ 64 else st.val) + dec) % 2 ^ 64, none)) = r) :
    UnmarshalText conv b t = r := by
  subst hu hdec hr
  exact UnmarshalText_scaled conv b t st m hloop hb hm hfit

theorem trimRightRev_suffix (l : List Nat) : trimRightRev l <:+ l := by
  induction l using trimRightRev.induct with
  | case1 => exact List.suffix_refl _
  | case2 c h => rw [trimRightRev]; simp [h]
  | case3 c h => rw [trimRightRev]; simp [h]
  | case4 d c h ih =>
    rw [trimRightRev]; simp only [h, if_true]
    exact List.IsSuffix.trans ih (List.suffix_cons _ _)
  | case5 d c h1 h2 => rw [trimRightRev]; simp [h1, h2]
  | case6 d c h1 h2 => rw [trimRightRev]; simp [h1, h2]
  | case7 e d c s h ih =>
    rw [trimRightRev]; simp only [h, if_true]
    exact List.IsSuffix.trans ih (List.suffix_cons _ _)
  | case8 e d c s h1 h2 ih =>
    rw [trimRightRev]; simp only [h1, h2, if_true, if_false, Bool.false_eq_true]
    exact List.IsSuffix.trans ih
      (List.IsSuffix.trans (List.suffix_cons _ _) (List.suffix_cons _ _))
  | case9 e d c s h1 h2 h3 ih =>
    rw [trimRightRev]; simp only [h1, h2, h3, if_true, if_false, Bool.false_eq_true]
    exact List.IsSuffix.trans ih
      (List.IsSuffix.trans (List.suffix_cons _ _)
        (List.IsSuffix.trans (List.suffix_cons _ _) (List.suffix_cons _ _)))
  | case10 e d c s h1 h2 h3 =>
    rw [trimRightRev]; simp only [h1, h2, h3, if_false, Bool.false_eq_true]
    exact List.suffix_refl _

theorem trimSpace_prefix (s : List Nat) : trimSpace s <+: trimLeft s := by
  unfold trimSpace
  have h := trimRightRev_suffix (trimLeft s).reverse
  rw [← List.reverse_prefix, List.reverse_reverse] at h
  exact h

/-- A remainder whose unit token is not empty and does not start like a number
does not start like a number either. -/
theorem endsNumber_of_trimSpace (rest : List Nat) (hne : trimSpace rest ≠ [])
    (h : EndsNumber (trimSpace rest)) : EndsNumber rest := by
  match rest with
  | [] => trivial
  | c :: s =>
    show ¬ (48 ≤ c ∧ c ≤ 57) ∧ c ≠ 46
    by_contra hc
    have hc1 : (48 ≤ c ∧ c ≤ 57) ∨ c = 46 := by omega
    have hkeep : trimLeft (c :: s) = c :: s := by
      apply trimLeft_keep
      · simp only [isAsciiSpace, Bool.or_eq_false_iff, decide_eq_false_iff_not]
        omega
      · intro d
        have h1 : c ≠ 194 := by omega
        simp [isSpace2, h1]
      · intro d e
        have h1 : c ≠ 225 := by omega
        have h2 : c ≠ 226 := by omega
        have h3 : c ≠ 227 := by omega
        simp [isSpace3, h1, h2, h3]
    have hp := trimSpace_prefix (c :: s)
    rw [hkeep] at hp
    obtain ⟨r, hr⟩ := hp
    match hts : trimSpace (c :: s) with
    | [] => exact hne hts
    | x :: p =>
      rw [hts] at hr h
      have hx : x = c := by
        simp only [List.cons_append, List.cons.injEq] at hr
        exact hr.1
      subst hx
      exact hc h

theorem bitUnit_shape {u : List Nat} (h : u ∈ bitUnits) : u ≠ [] ∧ EndsNumber u := by
  simp only [bitUnits, List.mem_cons, List.mem_singleton, List.not_mem_nil, or_false] at h
  rcases h with rfl | rfl | rfl | rfl | rfl | rfl <;> decide

/-! ## Half a unit -/

theorem parseLoop_half (d U : List Nat) (hd : IsDigits d) (hne : d ≠ [])
    (hv : digitsValue d < 2 ^ 64) :
    parseLoop (d ++ bytesOf ".5 " ++ U) scanStart
      = LoopExit.done ⟨digitsValue d, true, 5, 10, (d ++ bytesOf ".5").length⟩ := by
  have h := parseLoop_number d (bytesOf ".5") (32 :: U) hd hne hv (by decide) (by decide)
    (by show ¬ (48 ≤ 32 ∧ 32 ≤ 57) ∧ 32 ≠ 46; decide)
  have h1 : d ++ bytesOf ".5 " ++ U = d ++ bytesOf ".5" ++ 32 :: U := by
    have h2 : bytesOf ".5 " = bytesOf ".5" ++ [32] := by decide
    rw [h2]
    simp
  rw [h1, h]
  rfl

/-- With `KB`, `MB` or `GB`, a number followed by `.5` and the unit is read as
the number of units plus half a unit, exactly. -/
theorem half_unit_small (conv : F64 → Nat) (d U : List Nat) (m : Nat)
    (hd : IsDigits d) (hne : d ≠ [])
    (hU : (U, m) ∈ [(bytesOf "KB", KB), (bytesOf "MB", MB), (bytesOf "GB", GB)])
    (hfit : digitsValue d * m + m / 2 ≤ 2 ^ 64 - 1) :
    Parse conv (d ++ bytesOf ".5 " ++ U) = (digitsValue d * m + m / 2, none) := by
  have hm : m = KB ∨ m = MB ∨ m = GB := by
    simp only [List.mem_cons, Prod.mk.injEq, List.mem_singleton, List.not_mem_nil,
      or_false] at hU
    rcases hU with h | h | h
    · exact Or.inl h.2
    · exact Or.inr (Or.inl h.2)
    · exact Or.inr (Or.inr h.2)
  have hpos : 0 < m := by rcases hm with h | h | h <;> subst h <;> decide
  have hv : digitsValue d < 2 ^ 64 := by
    have : digitsValue d ≤ digitsValue d * m := Nat.le_mul_of_pos_right _ hpos
    omega
  have hloop := parseLoop_half d U hd hne hv
  have hdrop : (d ++ bytesOf ".5 " ++ U).drop (d ++ bytesOf ".5").length = 32 :: U := by
    have h2 : d ++ bytesOf ".5 " ++ U = d ++ bytesOf ".5" ++ 32 :: U := by
      have h3 : bytesOf ".5 " = bytesOf ".5" ++ [32] := by decide
      rw [h3]
      simp
    rw [h2]
    exact List.drop_left' rfl
  have hno : ¬ (m ≠ 1 ∧ digitsValue d > maxUint64 / m) := by
    rw [unit_overflow_iff hpos hv, maxUint64_eq]
    omega
  have hmod : digitsValue d * m % 2 ^ 64 = digitsValue d * m := Nat.mod_eq_of_lt (by omega)
  have hK : scaleDecimal conv 5 KB 10 = 512 := rfl
  have hM : scaleDecimal conv 5 MB 10 = 524288 := rfl
  have hG : scaleDecimal conv 5 GB 10 = 536870912 := rfl
  simp only [List.mem_cons, Prod.mk.injEq, List.mem_singleton, List.not_mem_nil,
    or_false] at hU
  unfold Parse
  rcases hU with ⟨rfl, rfl⟩ | ⟨rfl, rfl⟩ | ⟨rfl, rfl⟩
  · rw [UnmarshalText_scaled conv 0 _ _ KB hloop
      (by show isBitUnit (trimSpace (List.drop (d ++ bytesOf ".5").length _)) = false
          rw [hdrop]; decide)
      (by show unitMultiplier (toLower (trimSpace (List.drop (d ++ bytesOf ".5").length _)))
            = some KB
          rw [hdrop]; decide) hno]
    have h1 : ¬ (512 > maxUint64 / KB) := by decide
    have h2 : KB ≠ 1 := by decide
    have h3 : KB / 2 = 512 := by decide
    rw [h3] at hfit
    simp only [hK, h1, h2, h3, if_false, if_true, ne_eq, not_false_eq_true, hmod]
    rw [Nat.mod_eq_of_lt (by omega)]
  · rw [UnmarshalText_scaled conv 0 _ _ MB hloop
      (by show isBitUnit (trimSpace (List.drop (d ++ bytesOf ".5").length _)) = false
          rw [hdrop]; decide)
      (by show unitMultiplier (toLower (trimSpace (List.drop (d ++ bytesOf ".5").length _)))
            = some MB
          rw [hdrop]; decide) hno]
    have h1 : ¬ (524288 > maxUint64 / MB) := by decide
    have h2 : MB ≠ 1 := by decide
    have h3 : MB / 2 = 524288 := by decide
    rw [h3] at hfit
    simp only [hM, h1, h2, h3, if_false, if_true, ne_eq, not_false_eq_true, hmod]
    rw [Nat.mod_eq_of_lt (by omega)]
  · rw [UnmarshalText_scaled conv 0 _ _ GB hloop
      (by show isBitUnit (trimSpace (List.drop (d ++ bytesOf ".5").length _)) = false
          rw [hdrop]; decide)
      (by show unitMultiplier (toLower (trimSpace (List.drop (d ++ bytesOf ".5").length _)))
            = some GB
          rw [hdrop]; decide) hno]
    have h1 : ¬ (536870912 > maxUint64 / GB) := by decide
    have h2 : GB ≠ 1 := by decide
    have h3 : GB / 2 = 536870912 := by decide
    rw [h3] at hfit
    simp only [hG, h1, h2, h3, if_false, if_true, ne_eq, not_false_eq_true, hmod]
    rw [Nat.mod_eq_of_lt (by omega)]

/-- With `TB`, `PB` or `EB`, a number followed by `.5` and the unit is always
reported as an overflow: half a unit is more than `maxUint64 / unitUint64`. -/
theorem half_unit_large (conv : F64 → Nat) (d U : List Nat) (m : Nat)
    (hd : IsDigits d) (hne : d ≠ [])
    (hU : (U, m) ∈ [(bytesOf "TB", TB), (bytesOf "PB", PB), (bytesOf "EB", EB)])
    (hv : digitsValue d < 2 ^ 64) :
    Parse conv (d ++ bytesOf ".5 " ++ U)
      = (2 ^ 64 - 1, some ⟨"UnmarshalText", d ++ bytesOf ".5 " ++ U, Cause.ErrRange⟩) := by
  rw [← Overflow_eq]
  have hloop := parseLoop_half d U hd hne hv
  have hdrop : (d ++ bytesOf ".5 " ++ U).drop (d ++ bytesOf ".5").length = 32 :: U := by
    have h2 : d ++ bytesOf ".5 " ++ U = d ++ bytesOf ".5" ++ 32 :: U := by
      have h3 : bytesOf ".5 " = bytesOf ".5" ++ [32] := by decide
      rw [h3]
      simp
    rw [h2]
    exact List.drop_left' rfl
  have hT : scaleDecimal conv 5 TB 10 = 549755813888 := rfl
  have hP : scaleDecimal conv 5 PB 10 = 562949953421312 := rfl
  have hE : scaleDecimal conv 5 EB 10 = 576460752303423488 := rfl
  simp only [List.mem_cons, Prod.mk.injEq, List.mem_singleton, List.not_mem_nil,
    or_false] at hU
  unfold Parse
  rcases hU with ⟨rfl, rfl⟩ | ⟨rfl, rfl⟩ | ⟨rfl, rfl⟩
  · have hb : isBitUnit (trimSpace (List.drop (d ++ bytesOf ".5").length
        (d ++ bytesOf ".5 " ++ bytesOf "TB"))) = false := by rw [hdrop]; decide
    have hm : unitMultiplier (toLower (trimSpace (List.drop (d ++ bytesOf ".5").length
        (d ++ bytesOf ".5 " ++ bytesOf "TB")))) = some TB := by rw [hdrop]; decide
    by_cases hbig : TB ≠ 1 ∧ digitsValue d > maxUint64 / TB
    · exact UnmarshalText_unit_overflow conv 0 _ _ TB hloop hb hm hbig
    · rw [UnmarshalText_scaled conv 0 _ _ TB hloop hb hm hbig]
      have h1 : 549755813888 > maxUint64 / TB := by decide
      simp only [hT, h1, if_true]
  · have hb : isBitUnit (trimSpace (List.drop (d ++ bytesOf ".5").length
        (d ++ bytesOf ".5 " ++ bytesOf "PB"))) = false := by rw [hdrop]; decide
    have hm : unitMultiplier (toLower (trimSpace (List.drop (d ++ bytesOf ".5").length
        (d ++ bytesOf ".5 " ++ bytesOf "PB")))) = some PB := by rw [hdrop]; decide
    by_cases hbig : PB ≠ 1 ∧ digitsValue d > maxUint64 / PB
    · exact UnmarshalText_unit_overflow conv 0 _ _ PB hloop hb hm hbig
    · rw [UnmarshalText_scaled conv 0 _ _ PB hloop hb hm hbig]
      have h1 : 562949953421312 > maxUint64 / PB := by decide
      simp only [hP, h1, if_true]
  · have hb : isBitUnit (trimSpace (List.drop (d ++ bytesOf ".5").length
        (d ++ bytesOf ".5 " ++ bytesOf "EB"))) = false := by rw [hdrop]; decide
    have hm : unitMultiplier (toLower (trimSpace (List.drop (d ++ bytesOf ".5").length
        (d ++ bytesOf ".5 " ++ bytesOf "EB")))) = some EB := by rw [hdrop]; decide
    by_cases hbig : EB ≠ 1 ∧ digitsValue d > maxUint64 / EB
    · exact UnmarshalText_unit_overflow conv 0 _ _ EB hloop hb hm hbig
    · rw [UnmarshalText_scaled conv 0 _ _ EB hloop hb hm hbig]
      have h1 : 576460752303423488 > maxUint64 / EB := by decide
      simp only [hE, h1, if_true]

/-! ## The four ways `UnmarshalText` ends -/

theorem UnmarshalText_cases (conv : F64 → Nat) (b : ByteSize) (t : List Nat) :
    UnmarshalText conv b t = Overflow t ∨ UnmarshalText conv b t = SyntaxError t
      ∨ UnmarshalText conv b t = BitsError t ∨ (UnmarshalText conv b t).2 = none := by
  cases hloop : parseLoop t scanStart with
  | Overflow => exact Or.inl (UnmarshalText_loop_overflow conv b t hloop)
  | SyntaxError => exact Or.inr (Or.inl (UnmarshalText_loop_syntaxError conv b t hloop))
  | done st =>
    cases hb : isBitUnit (trimSpace (t.drop st.i)) with
    | true => exact Or.inr (Or.inr (Or.inl (UnmarshalText_bits conv b t st hloop hb)))
    | false =>
      cases hm : unitMultiplier (toLower (trimSpace (t.drop st.i))) with
      | none => exact Or.inr (Or.inl (UnmarshalText_unknown conv b t st hloop hb hm))
      | some m =>
        by_cases hbig : m ≠ 1 ∧ st.val > maxUint64 / m
        · exact Or.inl (UnmarshalText_unit_overflow conv b t st m hloop hb hm hbig)
        · rw [UnmarshalText_scaled conv b t st m hloop hb hm hbig]
          by_cases hd : scaleDecimal conv st.decimal m st.power > maxUint64 / m
          · rw [if_pos hd]
            exact Or.inl rfl
          · rw [if_neg hd]
            exact Or.inr (Or.inr (Or.inr rfl))

/-! ## The length of a decimal rendering -/

theorem formatUintAux_bounds (fuel n : Nat) (acc : List Nat) (h : n < fuel) :
    ∃ ds, formatUintAux fuel n acc = ds ++ acc ∧ 1 ≤ ds.length
      ∧ (0 < n → 10 ^ (ds.length - 1) ≤ n) ∧ n < 10 ^ ds.length := by
  induction fuel generalizing n acc with
  | zero => omega
  | succ fuel ih =>
    rw [formatUintAux]
    by_cases h0 : n / 10 = 0
    · simp only [h0, if_true]
      refine ⟨[48 + n % 10], rfl, by simp, ?_, ?_⟩
      · intro hn
        simpa using hn
      · simp only [List.length_singleton, Nat.pow_one]
        omega
    · simp only [h0, if_false]
      obtain ⟨ds, h1, h2, h3, h4⟩ := ih (n / 10) ((48 + n % 10) :: acc) (by omega)
      refine ⟨ds ++ [48 + n % 10], by rw [h1]; simp, by simp, ?_, ?_⟩
      · intro _
        have h5 := h3 (by omega)
        have h6 : 10 ^ (ds.length - 1) * 10 = 10 ^ ds.length := by
          rw [← Nat.pow_succ]
          congr 1
          omega
        simp only [List.length_append, List.length_singleton, Nat.add_sub_cancel]
        omega
      · simp only [List.length_append, List.length_singleton, Nat.pow_succ]
        omega

/-- The decimal rendering of `n` has as many bytes as `n` has decimal digits. -/
theorem formatUint_bounds (n : Nat) :
    1 ≤ (formatUint n).length ∧ (0 < n → 10 ^ ((formatUint n).length - 1) ≤ n)
      ∧ n < 10 ^ (formatUint n).length := by
  obtain ⟨ds, h1, h2, h3, h4⟩ := formatUintAux_bounds (n + 1) n [] (Nat.lt_succ_self n)
  have h5 : formatUint n = ds := by rw [formatUint, h1, List.append_nil]
  rw [h5]
  exact ⟨h2, h3, h4⟩

/-- Dividing by a thousand or more removes at least three digits. -/
theorem formatUint_length_step (n m : Nat) (hn : 0 < n) (h : 1000 * n ≤ m) :
    (formatUint n).length + 3 ≤ (formatUint m).length := by
  obtain ⟨a1, a2, _⟩ := formatUint_bounds n
  obtain ⟨_, _, b3⟩ := formatUint_bounds m
  have h1 := a2 hn
  have h2 : 10 ^ ((formatUint n).length - 1 + 3) ≤ 1000 * n := by
    rw [Nat.pow_add]
    have : (10 : Nat) ^ 3 = 1000 := by norm_num
    rw [this, Nat.mul_comm]
    exact Nat.mul_le_mul_left 1000 h1
  have h3 : 10 ^ ((formatUint n).length - 1 + 3) < 10 ^ (formatUint m).length :=
    Nat.lt_of_le_of_lt (Nat.le_trans h2 h) b3
  have h4 := (Nat.pow_lt_pow_iff_right (by norm_num : 1 < 10)).mp h3
  omega

theorem unit_powers : (1 : Nat) = 1024 ^ 0 ∧ KB = 1024 ^ 1 ∧ MB = 1024 ^ 2 ∧ GB = 1024 ^ 3
    ∧ TB = 1024 ^ 4 ∧ PB = 1024 ^ 5 ∧ EB = 1024 ^ 6 := by decide

/-- Between two powers of 1024 that divide `q`, the larger one leaves at least
three digits fewer. -/
theorem formatUint_length_units (q a b : Nat) (hq : q ≠ 0) (hab : a < b)
    (hb : 1024 ^ b ∣ q) :
    (formatUint (q / 1024 ^ b)).length + 3 ≤ (formatUint (q / 1024 ^ a)).length := by
  obtain ⟨k, rfl⟩ := hb
  have hpos : 0 < 1024 ^ b := Nat.pow_pos (by norm_num)
  have hk : 0 < k := by
    rcases Nat.eq_zero_or_pos k with h | h
    · subst h; simp at hq
    · exact h
  have h1 : 1024 ^ b * k / 1024 ^ b = k := Nat.mul_div_cancel_left k hpos
  have h2 : 1024 ^ b = 1024 ^ a * 1024 ^ (b - a) := by
    rw [← Nat.pow_add]; congr 1; omega
  have h3 : 1024 ^ b * k / 1024 ^ a = 1024 ^ (b - a) * k := by
    rw [h2, Nat.mul_assoc]
    exact Nat.mul_div_cancel_left _ (Nat.pow_pos (by norm_num))
  rw [h1, h3]
  apply formatUint_length_step k _ hk
  have h4 : 1024 ^ 1 ≤ 1024 ^ (b - a) := Nat.pow_le_pow_right (by norm_num) (by omega)
  have h5 : 1000 ≤ 1024 ^ (b - a) := by omega
  exact Nat.mul_le_mul_right k h5

/-! ## The shape of the canonical text -/

/-- For a quantity other than zero, `String` prints the quotient by the
largest power of 1024, up to the sixth, that divides it, and the name of that
unit. -/
theorem String_shape (q : Nat) (hq : q ≠ 0) :
    ∃ b name, b ≤ 6 ∧ String q = formatUint (q / 1024 ^ b) ++ name ∧ 1024 ^ b ∣ q
      ∧ (∀ c, c ≤ 6 → 1024 ^ c ∣ q → c ≤ b)
      ∧ name.length = (if b = 0 then 1 else 2) ∧ 46 ∉ name := by
  obtain ⟨_, u1, u2, u3, u4, u5, u6⟩ := unit_powers
  unfold String
  rw [if_neg hq, u1, u2, u3, u4, u5, u6]
  by_cases h6 : q % 1024 ^ 6 = 0
  · rw [if_pos h6]
    exact ⟨6, bytesOf "EB", by omega, rfl, Nat.dvd_of_mod_eq_zero h6, fun c hc _ => hc, rfl, by decide⟩
  rw [if_neg h6]
  have n6 : ¬ 1024 ^ 6 ∣ q := fun h => h6 (Nat.mod_eq_zero_of_dvd h)
  by_cases h5 : q % 1024 ^ 5 = 0
  · rw [if_pos h5]
    refine ⟨5, bytesOf "PB", by omega, rfl, Nat.dvd_of_mod_eq_zero h5, fun c hc hd => ?_, rfl, by decide⟩
    rcases (by omega : c ≤ 5 ∨ c = 6) with h | h
    · exact h
    · subst h; exact absurd hd n6
  rw [if_neg h5]
  have n5 : ¬ 1024 ^ 5 ∣ q := fun h => h5 (Nat.mod_eq_zero_of_dvd h)
  by_cases h4 : q % 1024 ^ 4 = 0
  · rw [if_pos h4]
    refine ⟨4, bytesOf "TB", by omega, rfl, Nat.dvd_of_mod_eq_zero h4, fun c hc hd => ?_, rfl, by decide⟩
    rcases (by omega : c ≤ 4 ∨ c = 5 ∨ c = 6) with h | h | h
    · exact h
    · subst h; exact absurd hd n5
    · subst h; exact absurd hd n6
  rw [if_neg h4]
  have n4 : ¬ 1024 ^ 4 ∣ q := fun h => h4 (Nat.mod_eq_zero_of_dvd h)
  by_cases h3 : q % 1024 ^ 3 = 0
  · rw [if_pos h3]
    refine ⟨3, bytesOf "GB", by omega, rfl, Nat.dvd_of_mod_eq_zero h3, fun c hc hd => ?_, rfl, by decide⟩
    rcases (by omega : c ≤ 3 ∨ c = 4 ∨ c = 5 ∨ c = 6) with h | h | h | h
    · exact h
    · subst h; exact absurd hd n4
    · subst h; exact absurd hd n5
    · subst h; exact absurd hd n6
  rw [if_neg h3]
  have n3 : ¬ 1024 ^ 3 ∣ q := fun h => h3 (Nat.mod_eq_zero_of_dvd h)
  by_cases h2 : q % 1024 ^ 2 = 0
  · rw [if_pos h2]
    refine ⟨2, bytesOf "MB", by omega, rfl, Nat.dvd_of_mod_eq_zero h2, fun c hc hd => ?_, rfl, by decide⟩
    rcases (by omega : c ≤ 2 ∨ c = 3 ∨ c = 4 ∨ c = 5 ∨ c = 6) with h | h | h | h | h
    · exact h
    · subst h; exact absurd hd n3
    · subst h; exact absurd hd n4
    · subst h; exact absurd hd n5
    · subst h; exact absurd hd n6
  rw [if_neg h2]
  have n2 : ¬ 1024 ^ 2 ∣ q := fun h => h2 (Nat.mod_eq_zero_of_dvd h)
  by_cases h1 : q % 1024 ^ 1 = 0
  · rw [if_pos h1]
    refine ⟨1, bytesOf "KB", by omega, rfl, Nat.dvd_of_mod_eq_zero h1, fun c hc hd => ?_, rfl, by decide⟩
    rcases (by omega : c ≤ 1 ∨ c = 2 ∨ c = 3 ∨ c = 4 ∨ c = 5 ∨ c = 6) with h | h | h | h | h | h
    · exact h
    · subst h; exact absurd hd n2
    · subst h; exact absurd hd n3
    · subst h; exact absurd hd n4
    · subst h; exact absurd hd n5
    · subst h; exact absurd hd n6
  rw [if_neg h1]
  have n1 : ¬ 1024 ^ 1 ∣ q := fun h => h1 (Nat.mod_eq_zero_of_dvd h)
  refine ⟨0, bytesOf "B", by omega, by rw [Nat.pow_zero, Nat.div_one], by simp,
    fun c hc hd => ?_, rfl, by decide⟩
  rcases (by omega : c ≤ 0 ∨ c = 1 ∨ c = 2 ∨ c = 3 ∨ c = 4 ∨ c = 5 ∨ c = 6)
    with h | h | h | h | h | h | h
  · exact h
  · subst h; exact absurd hd n1
  · subst h; exact absurd hd n2
  · subst h; exact absurd hd n3
  · subst h; exact absurd hd n4
  · subst h; exact absurd hd n5
  · subst h; exact absurd hd n6

/-- Every unit that `String` can print is a power of 1024 up to the sixth, and
its name has one byte for `B` and two bytes otherwise. -/
theorem unit_index {U : Nat} {name : List Nat}
    (h : (U, name) ∈ (1, bytesOf "B") :: unitNames) :
    ∃ a, a ≤ 6 ∧ U = 1024 ^ a ∧ name.length = (if a = 0 then 1 else 2) := by
  simp only [unitNames, List.mem_cons, Prod.mk.injEq, List.mem_singleton, List.not_mem_nil,
    or_false] at h
  rcases h with ⟨rfl, rfl⟩ | ⟨rfl, rfl⟩ | ⟨rfl, rfl⟩ | ⟨rfl, rfl⟩ | ⟨rfl, rfl⟩ | ⟨rfl, rfl⟩
    | ⟨rfl, rfl⟩
  · exact ⟨0, by omega, by decide, by decide⟩
  · exact ⟨6, by omega, by decide, by decide⟩
  · exact ⟨5, by omega, by decide, by decide⟩
  · exact ⟨4, by omega, by decide, by decide⟩
  · exact ⟨3, by omega, by decide, by decide⟩
  · exact ⟨2, by omega, by decide, by decide⟩
  · exact ⟨1, by omega, by decide, by decide⟩

/-! ## The scan loop with runtime checks agrees with the scan loop -/

theorem parseLoopAt_eq (t rest : List Nat) (st : Scan) (h : t.drop st.i = rest)
    (hi : st.i + rest.length = t.length) :
    parseLoopAt t rest.length st = Run.ok (parseLoop rest st) := by
  induction rest generalizing st with
  | nil =>
    have h0 : ¬ st.i < t.length := by simp at hi; omega
    simp only [List.length_nil, parseLoopAt, h0, if_false, parseLoop]
  | cons c rest ih =>
    have hlt : st.i < t.length := by simp at hi; omega
    have hcons := List.drop_eq_getElem_cons hlt
    rw [h] at hcons
    have hc : t[st.i] = c := (List.cons.inj hcons).1.symm
    have hrest : t.drop (st.i + 1) = rest := (List.cons.inj hcons).2.symm
    have hget : t[st.i]? = some c := by rw [List.getElem?_eq_getElem hlt, hc]
    have hi1 : st.i + 1 + rest.length = t.length := by simp at hi; omega
    have ih1 := ih { st with val := (st.val * 10 % 2 ^ 64 + (c - 48)) % 2 ^ 64, i := st.i + 1 }
      hrest hi1
    have ih2 := ih { st with decimal := (st.decimal * 10 % 2 ^ 64 + (c - 48)) % 2 ^ 64,
                             power := st.power * 10 % 2 ^ 64, i := st.i + 1 } hrest hi1
    have ih3 := ih { st with hasDecimal := true, i := st.i + 1 } hrest hi1
    simp only [List.length_cons, parseLoopAt, hlt, if_true, hget, parseLoop]
    split_ifs <;> first | rfl | exact ih1 | exact ih2 | exact ih3

/-- When the scan loop ends normally, the index it leaves is within the text. -/
theorem parseLoop_index (rest : List Nat) (st st1 : Scan)
    (h : parseLoop rest st = LoopExit.done st1) :
    st.i ≤ st1.i ∧ st1.i ≤ st.i + rest.length := by
  induction rest generalizing st with
  | nil =>
    rw [parseLoop] at h
    cases h
    exact ⟨Nat.le_refl _, Nat.le_refl _⟩
  | cons c rest ih =>
    rw [parseLoop] at h
    dsimp only at h
    simp only [List.length_cons]
    split_ifs at h <;> first
      | (cases h; omega)
      | (have hrec := ih _ h
         simp only at hrec
         omega)

/-! ## The scan of a numeric prefix does not depend on what follows -/

theorem parseLoop_prefix (p : List Nat) (st : Scan) (hp : IsNumeric p) :
    (∃ e, (e = LoopExit.Overflow ∨ e = LoopExit.SyntaxError)
        ∧ ∀ r, parseLoop (p ++ r) st = e)
      ∨ (∃ st1, st1.i = st.i + p.length ∧ ∀ r, parseLoop (p ++ r) st = parseLoop r st1) := by
  induction p generalizing st with
  | nil => exact Or.inr ⟨st, by simp, fun r => rfl⟩
  | cons c p ih =>
    have hp1 : IsNumeric p := fun x hx => hp x (List.mem_cons_of_mem c hx)
    have hstep : ∀ st2 : Scan, st2.i = st.i + 1 →
        (∀ r, parseLoop (c :: p ++ r) st = parseLoop (p ++ r) st2) →
        (∃ e, (e = LoopExit.Overflow ∨ e = LoopExit.SyntaxError)
            ∧ ∀ r, parseLoop (c :: p ++ r) st = e)
          ∨ (∃ st1, st1.i = st.i + (c :: p).length
            ∧ ∀ r, parseLoop (c :: p ++ r) st = parseLoop r st1) := by
      intro st2 hi hr
      rcases ih st2 hp1 with ⟨e, he, h⟩ | ⟨st1, hi1, h⟩
      · exact Or.inl ⟨e, he, fun r => by rw [hr r, h r]⟩
      · refine Or.inr ⟨st1, ?_, fun r => by rw [hr r, h r]⟩
        rw [hi1, hi, List.length_cons]
        omega
    obtain ⟨v, hdec, d, pw, i⟩ := st
    rcases hp c (List.mem_cons_self c p) with hc | hc
    · cases hdec
      · by_cases h1 : v > cutoff
        · refine Or.inl ⟨LoopExit.Overflow, Or.inl rfl, fun r => ?_⟩
          rw [List.cons_append, parseLoop]
          simp [hc, h1]
        · by_cases h2 : v * 10 % 2 ^ 64 > (v * 10 % 2 ^ 64 + (c - 48)) % 2 ^ 64
          · refine Or.inl ⟨LoopExit.Overflow, Or.inl rfl, fun r => ?_⟩
            rw [List.cons_append, parseLoop]
            simp only [hc, and_self, if_true, Bool.false_eq_true, not_false_eq_true, h1,
              if_false, h2]
          · refine hstep ⟨(v * 10 % 2 ^ 64 + (c - 48)) % 2 ^ 64, false, d, pw, i + 1⟩ rfl
              (fun r => ?_)
            rw [List.cons_append, parseLoop]
            simp only [hc, and_self, if_true, Bool.false_eq_true, not_false_eq_true, h1,
              if_false, h2]
      · by_cases h1 : d > cutoff
        · refine Or.inl ⟨LoopExit.Overflow, Or.inl rfl, fun r => ?_⟩
          rw [List.cons_append, parseLoop]
          simp [hc, h1]
        · by_cases h2 : d * 10 % 2 ^ 64 > (d * 10 % 2 ^ 64 + (c - 48)) % 2 ^ 64
          · refine Or.inl ⟨LoopExit.Overflow, Or.inl rfl, fun r => ?_⟩
            rw [List.cons_append, parseLoop]
            simp only [hc, and_self, if_true, not_true_eq_false, h1, if_false, h2]
          · refine hstep ⟨v, true, (d * 10 % 2 ^ 64 + (c - 48)) % 2 ^ 64, pw * 10 % 2 ^ 64,
              i + 1⟩ rfl (fun r => ?_)
            rw [List.cons_append, parseLoop]
            simp only [hc, and_self, if_true, not_true_eq_false, h1, if_false, h2]
    · subst hc
      cases hdec
      · refine hstep ⟨v, true, d, pw, i + 1⟩ rfl (fun r => ?_)
        rw [List.cons_append, parseLoop]
        simp
      · refine Or.inl ⟨LoopExit.SyntaxError, Or.inr rfl, fun r => ?_⟩
        rw [List.cons_append, parseLoop]
        simp

/-- Two inputs on which the scan ends in the same state, and whose unit tokens
are bit units together and find the same entry of the unit switch, have the
same outcome. -/
theorem UnmarshalText_outcome_congr (conv : F64 → Nat) (b : ByteSize) (t1 t2 : List Nat)
    (st : Scan) (h1 : parseLoop t1 scanStart = LoopExit.done st)
    (h2 : parseLoop t2 scanStart = LoopExit.done st)
    (hbit : isBitUnit (trimSpace (t1.drop st.i)) = isBitUnit (trimSpace (t2.drop st.i)))
    (hlow : unitMultiplier (toLower (trimSpace (t1.drop st.i)))
      = unitMultiplier (toLower (trimSpace (t2.drop st.i)))) :
    outcome (UnmarshalText conv b t1) = outcome (UnmarshalText conv b t2) := by
  cases hb : isBitUnit (trimSpace (t2.drop st.i)) with
  | true =>
    rw [UnmarshalText_bits conv b t1 st h1 (hbit.trans hb),
      UnmarshalText_bits conv b t2 st h2 hb]
    rfl
  | false =>
    cases hm : unitMultiplier (toLower (trimSpace (t2.drop st.i))) with
    | none =>
      rw [UnmarshalText_unknown conv b t1 st h1 (hbit.trans hb) (hlow.trans hm),
        UnmarshalText_unknown conv b t2 st h2 hb hm]
      rfl
    | some m =>
      have hm1 : unitMultiplier (toLower (trimSpace (t1.drop st.i))) = some m :=
        hlow.trans hm
      by_cases hbig : m ≠ 1 ∧ st.val > maxUint64 / m
      · rw [UnmarshalText_unit_overflow conv b t1 st m h1 (hbit.trans hb) hm1 hbig,
          UnmarshalText_unit_overflow conv b t2 st m h2 hb hm hbig]
        rfl
      · rw [UnmarshalText_scaled conv b t1 st m h1 (hbit.trans hb) hm1 hbig,
          UnmarshalText_scaled conv b t2 st m h2 hb hm hbig]
        by_cases hd : scaleDecimal conv st.decimal m st.power > maxUint64 / m
        · rw [if_pos hd, if_pos hd]
          rfl
        · rw [if_neg hd, if_neg hd]

/-! ## White space after the unit token -/

theorem asciiSpace_cases {x : Nat} (h : isAsciiSpace x = true) :
    x = 9 ∨ x = 10 ∨ x = 11 ∨ x = 12 ∨ x = 13 ∨ x = 32 := by
  simp only [isAsciiSpace, Bool.or_eq_true, decide_eq_true_eq] at h
  omega

theorem isSpace2_ascii (c x : Nat) (h : isAsciiSpace x = true) : isSpace2 c x = false := by
  rcases asciiSpace_cases h with rfl | rfl | rfl | rfl | rfl | rfl <;> simp [isSpace2]

theorem isSpace3_ascii_mid (c x e : Nat) (h : isAsciiSpace x = true) :
    isSpace3 c x e = false := by
  rcases asciiSpace_cases h with rfl | rfl | rfl | rfl | rfl | rfl <;> simp [isSpace3]

theorem isSpace3_ascii_last (c d x : Nat) (h : isAsciiSpace x = true) :
    isSpace3 c d x = false := by
  rcases asciiSpace_cases h with rfl | rfl | rfl | rfl | rfl | rfl <;> simp [isSpace3]

theorem trimLeft_spaces (w : List Nat) (hw : IsAsciiSpaces w) : trimLeft w = [] := by
  have h := trimLeft_spaces_append w [] hw
  rw [List.append_nil] at h
  rw [h]
  rfl

theorem isAsciiSpaces_tail {c : Nat} {w : List Nat} (h : IsAsciiSpaces (c :: w)) :
    IsAsciiSpaces w :=
  fun x hx => h x (List.mem_cons_of_mem c hx)

/-- Trimming at the front leaves ASCII white space at the end where it is,
unless the whole text is white space. -/
theorem trimLeft_append_spaces (u w : List Nat) (hw : IsAsciiSpaces w) :
    trimLeft (u ++ w) = if trimLeft u = [] then [] else trimLeft u ++ w := by
  induction u using trimLeft.induct with
  | case1 => simp [trimLeft, trimLeft_spaces w hw]
  | case2 c hc =>
    rw [List.singleton_append, trimLeft_space_cons c w hc, trimLeft_spaces w hw]
    simp [trimLeft, hc]
  | case3 c hc =>
    have hc1 : isAsciiSpace c = false := by simpa using hc
    have h1 : trimLeft [c] = [c] := by simp [trimLeft, hc1]
    rw [h1, List.singleton_append]
    simp only [List.cons_ne_nil, if_false, List.singleton_append]
    match w, hw with
    | [], _ => exact h1
    | [d], hw =>
      simp [trimLeft, hc1, isSpace2_ascii c d (hw d (by simp))]
    | d :: e :: w, hw =>
      simp [trimLeft, hc1, isSpace2_ascii c d (hw d (by simp)),
        isSpace3_ascii_mid c d e (hw d (by simp))]
  | case4 c d hc ih =>
    have h1 : trimLeft [c, d] = trimLeft [d] := trimLeft_space_cons c [d] hc
    rw [h1, ← ih]
    exact trimLeft_space_cons c ([d] ++ w) hc
  | case5 c d hc h2 =>
    have hc1 : isAsciiSpace c = false := by simpa using hc
    have h1 : trimLeft [c, d] = [] := by simp [trimLeft, hc1, h2]
    rw [h1]
    simp only [if_true]
    match w, hw with
    | [], _ => exact h1
    | e :: w, hw =>
      have h3 : trimLeft (c :: d :: e :: w) = trimLeft (e :: w) := by
        simp [trimLeft, hc1, h2]
      show trimLeft (c :: d :: e :: w) = []
      rw [h3]
      exact trimLeft_spaces _ hw
  | case6 c d hc h2 =>
    have hc1 : isAsciiSpace c = false := by simpa using hc
    have h21 : isSpace2 c d = false := by simpa using h2
    have h1 : trimLeft [c, d] = [c, d] := by simp [trimLeft, hc1, h21]
    rw [h1]
    simp only [List.cons_ne_nil, if_false]
    match w, hw with
    | [], _ => exact h1
    | e :: w, hw =>
      show trimLeft (c :: d :: e :: w) = c :: d :: e :: w
      simp [trimLeft, hc1, h21, isSpace3_ascii_last c d e (hw e (by simp))]
  | case7 c d e s hc ih =>
    have h1 : trimLeft (c :: d :: e :: s) = trimLeft (d :: e :: s) :=
      trimLeft_space_cons c _ hc
    rw [h1, ← ih]
    exact trimLeft_space_cons c _ hc
  | case8 c d e s hc h2 ih =>
    have hc1 : isAsciiSpace c = false := by simpa using hc
    have h1 : trimLeft (c :: d :: e :: s) = trimLeft (e :: s) := by
      simp [trimLeft, hc1, h2]
    have h3 : trimLeft (c :: d :: e :: s ++ w) = trimLeft (e :: s ++ w) := by
      simp [trimLeft, hc1, h2]
    rw [h1, ← ih, h3]
  | case9 c d e s hc h2 h3 ih =>
    have hc1 : isAsciiSpace c = false := by simpa using hc
    have h21 : isSpace2 c d = false := by simpa using h2
    have h1 : trimLeft (c :: d :: e :: s) = trimLeft s := by
      simp [trimLeft, hc1, h21, h3]
    have h4 : trimLeft (c :: d :: e :: s ++ w) = trimLeft (s ++ w) := by
      simp [trimLeft, hc1, h21, h3]
    rw [h1, ← ih, h4]
  | case10 c d e s hc h2 h3 =>
    have hc1 : isAsciiSpace c = false := by simpa using hc
    have h21 : isSpace2 c d = false := by simpa using h2
    have h31 : isSpace3 c d e = false := by simpa using h3
    have h1 : trimLeft (c :: d :: e :: s) = c :: d :: e :: s := by
      simp [trimLeft, hc1, h21, h31]
    have h4 : trimLeft (c :: d :: e :: s ++ w) = c :: d :: e :: s ++ w := by
      simp [trimLeft, hc1, h21, h31]
    rw [h1, h4]
    simp

theorem trimRightRev_space_cons (c : Nat) (s : List Nat) (hc : isAsciiSpace c = true) :
    trimRightRev (c :: s) = trimRightRev s := by
  match s with
  | [] => simp [trimRightRev, hc]
  | [d] => simp [trimRightRev, hc]
  | d :: e :: s => simp [trimRightRev, hc]

theorem trimRightRev_spaces_append (w s : List Nat) (hw : IsAsciiSpaces w) :
    trimRightRev (w ++ s) = trimRightRev s := by
  induction w with
  | nil => rfl
  | cons c w ih =>
    rw [List.cons_append, trimRightRev_space_cons _ _ (hw c (List.mem_cons_self c w))]
    exact ih (isAsciiSpaces_tail hw)

/-- ASCII white space after a text does not change its unit token. -/
theorem trimSpace_append_spaces (u w : List Nat) (hw : IsAsciiSpaces w) :
    trimSpace (u ++ w) = trimSpace u := by
  unfold trimSpace
  rw [trimLeft_append_spaces u w hw]
  by_cases h : trimLeft u = []
  · rw [if_pos h, h]
  · rw [if_neg h, List.reverse_append,
      trimRightRev_spaces_append w.reverse _ (fun x hx => hw x (List.mem_reverse.mp hx))]

/-! ## The outcome depends on the remainder through its unit token only -/

theorem outcome_after_prefix (conv : F64 → Nat) (p r1 r2 : List Nat) (hp : IsNumeric p)
    (hne : p ≠ []) (h1 : EndsNumber r1) (h2 : EndsNumber r2)
    (hbit : isBitUnit (trimSpace r1) = isBitUnit (trimSpace r2))
    (hlow : unitMultiplier (toLower (trimSpace r1)) = unitMultiplier (toLower (trimSpace r2))) :
    outcome (Parse conv (p ++ r1)) = outcome (Parse conv (p ++ r2)) := by
  unfold Parse
  rcases parseLoop_prefix p scanStart hp with ⟨e, he, h⟩ | ⟨st1, hi, h⟩
  · rcases he with rfl | rfl
    · rw [UnmarshalText_loop_overflow conv 0 _ (h r1),
        UnmarshalText_loop_overflow conv 0 _ (h r2)]
      rfl
    · rw [UnmarshalText_loop_syntaxError conv 0 _ (h r1),
        UnmarshalText_loop_syntaxError conv 0 _ (h r2)]
      rfl
  · have hlen : p.length ≠ 0 := fun h0 => hne (List.length_eq_zero.mp h0)
    have hi1 : st1.i = p.length := by
      rw [hi]
      show 0 + p.length = p.length
      omega
    have hi0 : st1.i ≠ 0 := by omega
    have e1 : parseLoop (p ++ r1) scanStart = LoopExit.done st1 := by
      rw [h r1, parseLoop_end r1 st1 h1 hi0]
    have e2 : parseLoop (p ++ r2) scanStart = LoopExit.done st1 := by
      rw [h r2, parseLoop_end r2 st1 h2 hi0]
    have d1 : (p ++ r1).drop st1.i = r1 := by rw [hi1]; exact List.drop_left' rfl
    have d2 : (p ++ r2).drop st1.i = r2 := by rw [hi1]; exact List.drop_left' rfl
    exact UnmarshalText_outcome_congr conv 0 _ _ st1 e1 e2 (by rw [d1, d2]; exact hbit)
      (by rw [d1, d2]; exact hlow)

/-- A text that is not ASCII is no case label of the unit switch. -/
theorem unitMultiplier_nonAscii {l : List Nat} (h : ¬ IsAscii l) : unitMultiplier l = none := by
  cases hm : unitMultiplier l with
  | none => rfl
  | some m =>
    refine absurd (fun c hc => ?_) h
    have := unitMultiplier_smallLetters hm c hc
    omega

theorem endsNumber_spaces_append (w r : List Nat) (hw : IsAsciiSpaces w)
    (hr : EndsNumber r) : EndsNumber (w ++ r) := by
  cases w with
  | nil => exact hr
  | cons c w =>
    have hc := asciiSpace_cases (hw c (List.mem_cons_self c w))
    show ¬ (48 ≤ c ∧ c ≤ 57) ∧ c ≠ 46
    omega

theorem endsNumber_append_spaces (u w : List Nat) (hw : IsAsciiSpaces w)
    (hu : EndsNumber u) : EndsNumber (u ++ w) := by
  cases u with
  | nil =>
    have h := endsNumber_spaces_append w [] hw trivial
    simpa using h
  | cons c u => exact hu

/-- With as many iterations as the text has bytes, no check of the runtime
fails: the checked method returns what `UnmarshalText` returns. -/
theorem UnmarshalTextAt_eq (conv : F64 → Nat) (b : ByteSize) (t : List Nat) :
    UnmarshalTextAt conv b t t.length = Run.ok (UnmarshalText conv b t) := by
  have hloop : parseLoopAt t t.length scanStart = Run.ok (parseLoop t scanStart) :=
    parseLoopAt_eq t t scanStart rfl (by show 0 + t.length = t.length; omega)
  unfold scanStart at hloop
  unfold UnmarshalTextAt UnmarshalText
  rw [hloop]
  cases hl : parseLoop t { val := 0, hasDecimal := false, decimal := 0, power := 1, i := 0 } with
  | Overflow => rfl
  | SyntaxError => rfl
  | done st =>
    have hidx : ¬ t.length < st.i := by
      have h1 := (parseLoop_index t scanStart st hl).2
      have h2 : scanStart.i = 0 := rfl
      omega
    simp only [hidx, if_false]
    cases hb : isBitUnit (trimSpace (t.drop st.i)) with
    | true => simp
    | false =>
      simp only [Bool.false_eq_true, if_false]
      cases hm : unitMultiplier (toLower (trimSpace (t.drop st.i))) with
      | none => rfl
      | some m =>
        have hpos := unitMultiplier_pos hm
        have h0 : ¬ m = 0 := by omega
        simp only [h0, if_false]
        split_ifs <;> rfl

/-! ## Digit strings and their decimal rendering -/

/-- A run of decimal digits denotes a number below the power of ten of its
length, past the value already accumulated. -/
theorem accum_lt (v : Nat) (ds : List Nat) (hd : IsDigits ds) :
    accum v ds < (v + 1) * 10 ^ ds.length := by
  induction ds generalizing v with
  | nil => simp [accum_nil]
  | cons c ds ih =>
    have hc := hd c (List.mem_cons_self c ds)
    have hds : IsDigits ds := fun x hx => hd x (List.mem_cons_of_mem c hx)
    rw [accum_cons, List.length_cons, Nat.pow_succ]
    have h1 := ih (v * 10 + (c - 48)) hds
    have h2 : v * 10 + (c - 48) + 1 ≤ (v + 1) * 10 := by omega
    have h3 : (v * 10 + (c - 48) + 1) * 10 ^ ds.length ≤ (v + 1) * 10 * 10 ^ ds.length :=
      Nat.mul_le_mul_right _ h2
    have h4 : (v + 1) * (10 ^ ds.length * 10) = (v + 1) * 10 * 10 ^ ds.length := by ring
    rw [h4]
    exact Nat.lt_of_lt_of_le h1 h3

/-- The decimal rendering of a number is no longer than any non-empty run of
digits that denotes it. -/
theorem formatUint_length_le (ds : List Nat) (hd : IsDigits ds) (hne : ds ≠ []) :
    (formatUint (digitsValue ds)).length ≤ ds.length := by
  have hlen : 1 ≤ ds.length := by
    cases ds with
    | nil => exact absurd rfl hne
    | cons c ds => simp
  have h1 : digitsValue ds < 10 ^ ds.length := by
    have h := accum_lt 0 ds hd
    rwa [Nat.zero_add, Nat.one_mul] at h
  rcases Nat.eq_zero_or_pos (digitsValue ds) with h0 | hpos
  · rw [h0]
    exact Nat.le_trans (by decide) hlen
  · have h2 := (formatUint_bounds (digitsValue ds)).2.1 hpos
    have h3 := (Nat.pow_lt_pow_iff_right (by norm_num : 1 < 10)).mp (Nat.lt_of_le_of_lt h2 h1)
    omega

/-- The seven unit names end a number, are not bit units, and stand for their
multiplier in the unit switch. -/
theorem unit_name_read {U : Nat} {name : List Nat}
    (h : (U, name) ∈ (1, bytesOf "B") :: unitNames) :
    EndsNumber name ∧ isBitUnit (trimSpace name) = false
      ∧ unitMultiplier (toLower (trimSpace name)) = some U := by
  simp only [unitNames, List.mem_cons, Prod.mk.injEq, List.mem_singleton, List.not_mem_nil,
    or_false] at h
  rcases h with ⟨rfl, rfl⟩ | ⟨rfl, rfl⟩ | ⟨rfl, rfl⟩ | ⟨rfl, rfl⟩ | ⟨rfl, rfl⟩ | ⟨rfl, rfl⟩
    | ⟨rfl, rfl⟩ <;> exact ⟨by decide, by decide, by decide⟩

/-! ## Claims -/

/-- C1. Round trip: for every quantity `q` below `2 ^ 64`, `Parse` applied to
`String q` returns `q` with no error; equivalently `UnmarshalText`, on a
receiver holding any value, applied to the text that `MarshalText q` returns,
restores `q` with no error, `MarshalText` itself returning no error. -/
theorem C1_roundtrip (conv : F64 → Nat) (q : ByteSize) (hq : q < 2 ^ 64) :
    Parse conv (String q) = (q, none)
      ∧ (∀ b : ByteSize, UnmarshalText conv b (MarshalText q).1 = (q, none))
      ∧ (MarshalText q).2 = none :=
  ⟨UnmarshalText_String conv 0 q hq, fun b => UnmarshalText_String conv b q hq, rfl⟩

/-- C1 at `2048 * MB`, printed as `2GB`. -/
theorem C1_roundtrip_witness :
    String (2048 * MB) = bytesOf "2GB"
      ∧ Parse convZero (String (2048 * MB)) = (2048 * MB, none) :=
  ⟨by decide, (C1_roundtrip convZero (2048 * MB) (by decide)).1⟩

/-- C2. Integer input with a unit: for a non-empty string of decimal digits
`d` (leading zeros allowed), a run `w` of spaces and a unit token `u` that is
not one of `Kb, Mb, Gb, Tb, Pb, Eb` and whose lower case is in the unit table
with multiplier `m`: if the value of `d` times `m` is at most `2 ^ 64 - 1`,
then `Parse (d ++ w ++ u)` returns that product and no error. -/
theorem C2_integer_with_unit (conv : F64 → Nat) (d w u : List Nat) (m : Nat)
    (hd : IsDigits d) (hne : d ≠ []) (hw : ∀ c ∈ w, c = 32) (hbit : u ∉ bitUnits)
    (hm : (toLower u, m) ∈ unitTable) (hfit : digitsValue d * m ≤ 2 ^ 64 - 1) :
    Parse conv (d ++ w ++ u) = (digitsValue d * m, none) := by
  have hm1 := unitMultiplier_of_table hm
  have hws : IsAsciiSpaces w := fun c hc => by rw [hw c hc]; rfl
  obtain ⟨h1, h2⟩ := spaces_unit_shape hws hm1
  rw [List.append_assoc]
  exact UnmarshalText_integer conv 0 d (w ++ u) m hd hne h2
    (by rw [h1]; exact (isBitUnit_false_iff u).mpr hbit) (by rw [h1]; exact hm1) hfit

/-- C2 at the inputs `1K`, `2MB`, `20480 G`, `0`, `0B` and `0 KB`. -/
theorem C2_integer_with_unit_witness :
    Parse convZero (bytesOf "1K") = (1024, none)
      ∧ Parse convZero (bytesOf "2MB") = (2097152, none)
      ∧ Parse convZero (bytesOf "20480 G") = (20 * TB, none)
      ∧ Parse convZero (bytesOf "0") = (0, none)
      ∧ Parse convZero (bytesOf "0B") = (0, none)
      ∧ Parse convZero (bytesOf "0 KB") = (0, none) :=
  ⟨(C2_integer_with_unit convZero (bytesOf "1") [] (bytesOf "K") (2 ^ 10)
      (by decide) (by decide) (by decide) (by decide) (by decide) (by decide)).trans
      (by decide),
   (C2_integer_with_unit convZero (bytesOf "2") [] (bytesOf "MB") (2 ^ 20)
      (by decide) (by decide) (by decide) (by decide) (by decide) (by decide)).trans
      (by decide),
   (C2_integer_with_unit convZero (bytesOf "20480") (bytesOf " ") (bytesOf "G") (2 ^ 30)
      (by decide) (by decide) (by decide) (by decide) (by decide) (by decide)).trans
      (by decide),
   C2_integer_with_unit convZero (bytesOf "0") [] [] 1
      (by decide) (by decide) (by decide) (by decide) (by decide) (by decide),
   C2_integer_with_unit convZero (bytesOf "0") [] (bytesOf "B") 1
      (by decide) (by decide) (by decide) (by decide) (by decide) (by decide),
   (C2_integer_with_unit convZero (bytesOf "0") (bytesOf " ") (bytesOf "KB") (2 ^ 10)
      (by decide) (by decide) (by decide) (by decide) (by decide) (by decide)).trans
      (by decide)⟩

/-- C3. Overflow saturation: for an input made of at least one integer digit,
an optional fractional part, ASCII white space and a unit token that is not a
bit unit and whose lower case is in the unit table with multiplier `m`, if the
integer part times `m` exceeds `2 ^ 64 - 1` then `Parse` returns the quantity
`2 ^ 64 - 1` and an error whose cause is `strconv.ErrRange`. -/
theorem C3_overflow_saturation (conv : F64 → Nat) (d frac w u : List Nat) (m : Nat)
    (hd : IsDigits d) (hne : d ≠ []) (hfr : IsFraction frac) (hw : IsAsciiSpaces w)
    (hbit : u ∉ bitUnits) (hm : (toLower u, m) ∈ unitTable)
    (hbig : 2 ^ 64 - 1 < digitsValue d * m) :
    Parse conv (d ++ frac ++ w ++ u)
      = (2 ^ 64 - 1, some ⟨"UnmarshalText", d ++ frac ++ w ++ u, Cause.ErrRange⟩) := by
  have hm1 := unitMultiplier_of_table hm
  have hpos := unitMultiplier_pos hm1
  obtain ⟨h1, h2⟩ := spaces_unit_shape hw hm1
  rw [← Overflow_eq]
  have hassoc : d ++ frac ++ w ++ u = d ++ frac ++ (w ++ u) := by simp
  rw [hassoc]
  unfold Parse
  by_cases hv : digitsValue d < 2 ^ 64
  · by_cases hfv : digitsValue frac.tail < 2 ^ 64
    · have hloop := parseLoop_number d frac (w ++ u) hd hne hv hfr hfv h2
      refine UnmarshalText_unit_overflow conv 0 _ _ m hloop ?_ ?_ ?_
      · rw [drop_number, h1]; exact (isBitUnit_false_iff u).mpr hbit
      · rw [drop_number, h1]; exact hm1
      · exact (unit_overflow_iff hpos hv).mpr (by rw [maxUint64_eq]; omega)
    · apply UnmarshalText_loop_overflow
      rcases hfr with rfl | ⟨hhead, hf⟩
      · exact absurd (by decide : digitsValue ([] : List Nat).tail < 2 ^ 64) hfv
      · cases frac with
        | nil => simp at hhead
        | cons c f =>
          simp only [List.head?_cons, Option.some.injEq] at hhead
          subst hhead
          have h := parseLoop_fraction_overflow d f (w ++ u) hd hv hf
            (by simpa using hfv)
          simpa using h
  · apply UnmarshalText_loop_overflow
    have h := parseLoop_number_overflow d (frac ++ (w ++ u)) hd (by omega)
    simpa using h

/-- C3 at the inputs `50 eB` and `200000 pb`. -/
theorem C3_overflow_saturation_witness :
    Parse convZero (bytesOf "50 eB")
        = (2 ^ 64 - 1, some ⟨"UnmarshalText", bytesOf "50 eB", Cause.ErrRange⟩)
      ∧ Parse convZero (bytesOf "200000 pb")
        = (2 ^ 64 - 1, some ⟨"UnmarshalText", bytesOf "200000 pb", Cause.ErrRange⟩) :=
  ⟨C3_overflow_saturation convZero (bytesOf "50") [] (bytesOf " ") (bytesOf "eB") (2 ^ 60)
      (by decide) (by decide) (by decide) (by decide) (by decide) (by decide) (by decide),
   C3_overflow_saturation convZero (bytesOf "200000") [] (bytesOf " ") (bytesOf "pb") (2 ^ 50)
      (by decide) (by decide) (by decide) (by decide) (by decide) (by decide) (by decide)⟩

/-- C4 fails on the code at `0.5 TB`: the true result, half of `2 ^ 40`, fits
64 bits, and `Parse` returns the saturated quantity with an `ErrRange` error,
because the fractional bytes `2 ^ 39` are compared with `maxUint64 / TB`. -/
theorem C4_overflow_without_excess :
    ParsesTo (bytesOf "0.5 TB")
        (2 ^ 64 - 1, some ⟨"UnmarshalText", bytesOf "0.5 TB", Cause.ErrRange⟩)
      ∧ ((0 : ℚ) + 5 / 10) * 2 ^ 40 ≤ 2 ^ 64 - 1 := by
  refine ⟨fun conv => ?_, by norm_num⟩
  exact UnmarshalText_eval conv 0 _ ⟨0, true, 5, 10, 3⟩ (bytesOf "TB") TB 549755813888 _
    (by decide) (by decide) (by decide) (by decide) (by decide) rfl (by decide)

/-- C5 fails on the code. At `0.18014398509481984 KB` the product
`decimal * unitUint64` is `2 ^ 64` and wraps to `0`: `Parse` succeeds with the
quantity `0`, where the integer part times the unit plus the fractional value
times the unit, truncated, is `184`. At
`18446744073709551615.9999999999999999999` the fractional part is rounded up
to one byte and the final sum wraps: `Parse` succeeds with the quantity `0`. -/
theorem C5_fraction_wraps :
    ParsesTo (bytesOf "0.18014398509481984 KB") (0, none)
      ∧ 0 * 2 ^ 10 + 18014398509481984 * 2 ^ 10 / 10 ^ 17 = 184
      ∧ ParsesTo (bytesOf "18446744073709551615.9999999999999999999") (0, none) := by
  refine ⟨fun conv => ?_, by decide, fun conv => ?_⟩
  · exact UnmarshalText_eval conv 0 _ ⟨0, true, 18014398509481984, 100000000000000000, 19⟩
      (bytesOf "KB") KB 0 _
      (by decide) (by decide) (by decide) (by decide) (by decide) rfl (by decide)
  · exact UnmarshalText_eval conv 0 _
      ⟨18446744073709551615, true, 9999999999999999999, 10000000000000000000, 40⟩
      [] 1 1 _
      (by decide) (by decide) (by decide) (by decide) (by decide) rfl (by decide)

/-- C6 as stated fails: the empty input, the input `.` and the input `.5K` do
not begin with a decimal digit, and `Parse` returns no error on them, with the
quantities `0`, `0` and `512`. -/
theorem C6_counterexample :
    ParsesTo (bytesOf "") (0, none) ∧ ParsesTo (bytesOf ".") (0, none)
      ∧ ParsesTo (bytesOf ".5K") (512, none) := by
  refine ⟨fun conv => ?_, fun conv => ?_, fun conv => ?_⟩
  · exact UnmarshalText_eval conv 0 _ ⟨0, false, 0, 1, 0⟩ [] 1 0 _
      (by decide) (by decide) (by decide) (by decide) (by decide) rfl (by decide)
  · exact UnmarshalText_eval conv 0 _ ⟨0, true, 0, 1, 1⟩ [] 1 0 _
      (by decide) (by decide) (by decide) (by decide) (by decide) rfl (by decide)
  · exact UnmarshalText_eval conv 0 _ ⟨0, true, 5, 10, 2⟩ (bytesOf "K") KB 512 _
      (by decide) (by decide) (by decide) (by decide) (by decide) rfl (by decide)

/-- C6, amended. For every input whose first byte is neither a decimal digit
nor a decimal point, `Parse` returns the quantity `0` and an error whose cause
is `strconv.ErrSyntax`. -/
theorem C6_leading_byte (conv : F64 → Nat) (c : Nat) (rest : List Nat)
    (hc : ¬ (48 ≤ c ∧ c ≤ 57)) (hdot : c ≠ 46) :
    Parse conv (c :: rest) = (0, some ⟨"UnmarshalText", c :: rest, Cause.ErrSyntax⟩) := by
  rw [← SyntaxError_eq]
  apply UnmarshalText_loop_syntaxError
  rw [parseLoop]
  simp [hc, hdot, scanStart]

/-- C6, amended, at the input `g`. -/
theorem C6_leading_byte_witness :
    Parse convZero (bytesOf "g") = (0, some ⟨"UnmarshalText", bytesOf "g", Cause.ErrSyntax⟩) :=
  C6_leading_byte convZero 103 [] (by decide) (by decide)

/-- C7. Bit-unit rejection: for an input made of a numeric prefix that scans
without overflow (at least one digit, then an optional fractional part) and a
remainder whose unit token, the remainder without the white space around it,
is one of `Kb, Mb, Gb, Tb, Pb, Eb`, `Parse` returns the quantity `0` and an
error whose cause is `ErrBits`, whatever the number is. -/
theorem C7_bit_unit (conv : F64 → Nat) (d frac rest : List Nat)
    (hd : IsDigits d) (hne : d ≠ []) (hv : digitsValue d < 2 ^ 64)
    (hfr : IsFraction frac) (hfv : digitsValue frac.tail < 2 ^ 64)
    (hbit : trimSpace rest ∈ bitUnits) :
    Parse conv (d ++ frac ++ rest)
      = (0, some ⟨"UnmarshalText", d ++ frac ++ rest, Cause.ErrBits⟩) := by
  rw [← BitsError_eq]
  obtain ⟨h1, h2⟩ := bitUnit_shape hbit
  have hrest := endsNumber_of_trimSpace rest h1 h2
  have hloop := parseLoop_number d frac rest hd hne hv hfr hfv hrest
  refine UnmarshalText_bits conv 0 _ _ hloop ?_
  rw [drop_number]
  exact (isBitUnit_iff _).mpr hbit

/-- C7 at the input `10 Mb`, and at `99999999999999999 Eb` and `0.5 Kb`, where
the number times the unit would overflow or fit. -/
theorem C7_bit_unit_witness :
    Parse convZero (bytesOf "10 Mb")
        = (0, some ⟨"UnmarshalText", bytesOf "10 Mb", Cause.ErrBits⟩)
      ∧ Parse convZero (bytesOf "99999999999999999 Eb")
        = (0, some ⟨"UnmarshalText", bytesOf "99999999999999999 Eb", Cause.ErrBits⟩)
      ∧ Parse convZero (bytesOf "0.5 Kb")
        = (0, some ⟨"UnmarshalText", bytesOf "0.5 Kb", Cause.ErrBits⟩) :=
  ⟨C7_bit_unit convZero (bytesOf "10") [] (bytesOf " Mb") (by decide) (by decide) (by decide)
      (by decide) (by decide) (by decide),
   C7_bit_unit convZero (bytesOf "99999999999999999") [] (bytesOf " Eb") (by decide)
      (by decide) (by decide) (by decide) (by decide) (by decide),
   C7_bit_unit convZero (bytesOf "0") (bytesOf ".5") (bytesOf " Kb") (by decide)
      (by decide) (by decide) (by decide) (by decide) (by decide)⟩

/-- C8 fails on the code at `1.5 PB`: one and a half times `2 ^ 50` fits 64
bits, and `Parse` returns the saturated quantity with an `ErrRange` error. -/
theorem C8_half_PB_overflow :
    ParsesTo (bytesOf "1.5 PB")
        (2 ^ 64 - 1, some ⟨"UnmarshalText", bytesOf "1.5 PB", Cause.ErrRange⟩)
      ∧ 1 * 2 ^ 50 + 2 ^ 50 / 2 ≤ 2 ^ 64 - 1 := by
  refine ⟨fun conv => ?_, by decide⟩
  exact UnmarshalText_eval conv 0 _ ⟨1, true, 5, 10, 3⟩ (bytesOf "PB") PB 562949953421312 _
    (by decide) (by decide) (by decide) (by decide) (by decide) rfl (by decide)

/-- C9. At most one decimal point: for an input in which a second decimal
point follows digits, a decimal point and digits (either run of digits may be
empty), none of the two runs overflowing, `Parse` returns the quantity `0` and
an error whose cause is `strconv.ErrSyntax`, whatever follows. -/
theorem C9_second_point (conv : F64 → Nat) (a b rest : List Nat)
    (ha : IsDigits a) (hb : IsDigits b) (hav : digitsValue a < 2 ^ 64)
    (hbv : digitsValue b < 2 ^ 64) :
    Parse conv (a ++ [46] ++ b ++ [46] ++ rest)
      = (0, some ⟨"UnmarshalText", a ++ [46] ++ b ++ [46] ++ rest, Cause.ErrSyntax⟩) := by
  rw [← SyntaxError_eq]
  apply UnmarshalText_loop_syntaxError
  have hassoc : a ++ [46] ++ b ++ [46] ++ rest = a ++ (46 :: (b ++ (46 :: rest))) := by simp
  rw [hassoc]
  unfold scanStart
  rw [parseLoop_int_digits a _ 0 0 1 0 ha hav, parseLoop_point,
    parseLoop_frac_digits b _ _ 0 1 _ hb (by norm_num) hbv, parseLoop_second_point]

/-- C9 at the input `1.1.1.1 KB`. -/
theorem C9_second_point_witness :
    Parse convZero (bytesOf "1.1.1.1 KB")
      = (0, some ⟨"UnmarshalText", bytesOf "1.1.1.1 KB", Cause.ErrSyntax⟩) :=
  C9_second_point convZero (bytesOf "1") (bytesOf "1") (bytesOf "1.1 KB") (by decide)
    (by decide) (by decide) (by decide)

/-- C10. Unknown units are rejected: for an input made of a numeric prefix
that scans without overflow (at least one digit, then an optional fractional
part) and a remainder whose unit token, the remainder without the white space
around it, is not one of `Kb, Mb, Gb, Tb, Pb, Eb` and whose lower case is not
an entry of the unit table, `Parse` returns the quantity `0` and an error
whose cause is `strconv.ErrSyntax`. -/
theorem C10_unknown_unit (conv : F64 → Nat) (d frac rest : List Nat)
    (hd : IsDigits d) (hne : d ≠ []) (hv : digitsValue d < 2 ^ 64)
    (hfr : IsFraction frac) (hfv : digitsValue frac.tail < 2 ^ 64)
    (hrest : EndsNumber rest) (hbit : trimSpace rest ∉ bitUnits)
    (hunk : ∀ m, (toLower (trimSpace rest), m) ∉ unitTable) :
    Parse conv (d ++ frac ++ rest)
      = (0, some ⟨"UnmarshalText", d ++ frac ++ rest, Cause.ErrSyntax⟩) := by
  rw [← SyntaxError_eq]
  have hloop := parseLoop_number d frac rest hd hne hv hfr hfv hrest
  refine UnmarshalText_unknown conv 0 _ _ hloop ?_ ?_
  · rw [drop_number]
    exact (isBitUnit_false_iff _).mpr hbit
  · rw [drop_number]
    cases hm : unitMultiplier (toLower (trimSpace rest)) with
    | none => rfl
    | some m => exact absurd (table_of_unitMultiplier hm) (hunk m)

/-- C10 at the input `10 kBs `, next to the input `10 kB `, which is read as
ten times `2 ^ 10`. -/
theorem C10_unknown_unit_witness :
    Parse convZero (bytesOf "10 kBs ")
        = (0, some ⟨"UnmarshalText", bytesOf "10 kBs ", Cause.ErrSyntax⟩)
      ∧ Parse convZero (bytesOf "10 kB ") = (10 * KB, none) :=
  ⟨C10_unknown_unit convZero (bytesOf "10") [] (bytesOf " kBs ") (by decide) (by decide)
      (by decide) (by decide) (by decide) (by decide) (by decide)
      (fun m hm => by
        have h := unitMultiplier_of_table hm
        have hn : unitMultiplier (toLower (trimSpace (bytesOf " kBs "))) = none := by decide
        rw [hn] at h
        exact Option.noConfusion h),
   by decide⟩

/-- C11. Canonical string: `String 0` is `0B`; for a quantity `q` other than
zero, if a unit among `EB, PB, TB, GB, MB, KB` divides `q` and is the largest
of them that does, `String q` is the decimal rendering of the quotient followed
by the two-letter name of that unit; if none of them divides `q`, `String q` is
the decimal rendering of `q` followed by `B`. `String q` never holds a decimal
point, and `MarshalText q` returns `String q` with a nil error. -/
theorem C11_canonical_string (q : ByteSize) :
    (q = 0 → String q = bytesOf "0B")
      ∧ (q ≠ 0 → ∀ U name, (U, name) ∈ unitNames → U ∣ q →
          (∀ p ∈ unitNames, p.1 ∣ q → p.1 ≤ U) →
          String q = formatUint (q / U) ++ name ∧ name.length = 2)
      ∧ (q ≠ 0 → (∀ p ∈ unitNames, ¬ p.1 ∣ q) →
          String q = formatUint q ++ bytesOf "B")
      ∧ 46 ∉ String q
      ∧ MarshalText q = (String q, none) := by
  refine ⟨fun h => by rw [h]; rfl, fun hq U name hmem hdvd hmax => ?_, fun hq hnone => ?_, ?_,
    rfl⟩
  · have hno : ∀ V n, (V, n) ∈ unitNames → U < V → ¬ q % V = 0 := fun V n hV hlt h0 =>
      absurd (hmax (V, n) hV (Nat.dvd_of_mod_eq_zero h0)) (Nat.not_le.mpr hlt)
    have hU : q % U = 0 := Nat.mod_eq_zero_of_dvd hdvd
    simp only [unitNames, List.mem_cons, Prod.mk.injEq, List.mem_singleton, List.not_mem_nil,
      or_false] at hmem
    unfold String
    rw [if_neg hq]
    rcases hmem with ⟨rfl, rfl⟩ | ⟨rfl, rfl⟩ | ⟨rfl, rfl⟩ | ⟨rfl, rfl⟩ | ⟨rfl, rfl⟩ | ⟨rfl, rfl⟩
    · rw [if_pos hU]
      exact ⟨rfl, rfl⟩
    · rw [if_neg (hno EB (bytesOf "EB") (by decide) (by decide)), if_pos hU]
      exact ⟨rfl, rfl⟩
    · rw [if_neg (hno EB (bytesOf "EB") (by decide) (by decide)),
        if_neg (hno PB (bytesOf "PB") (by decide) (by decide)), if_pos hU]
      exact ⟨rfl, rfl⟩
    · rw [if_neg (hno EB (bytesOf "EB") (by decide) (by decide)),
        if_neg (hno PB (bytesOf "PB") (by decide) (by decide)),
        if_neg (hno TB (bytesOf "TB") (by decide) (by decide)), if_pos hU]
      exact ⟨rfl, rfl⟩
    · rw [if_neg (hno EB (bytesOf "EB") (by decide) (by decide)),
        if_neg (hno PB (bytesOf "PB") (by decide) (by decide)),
        if_neg (hno TB (bytesOf "TB") (by decide) (by decide)),
        if_neg (hno GB (bytesOf "GB") (by decide) (by decide)), if_pos hU]
      exact ⟨rfl, rfl⟩
    · rw [if_neg (hno EB (bytesOf "EB") (by decide) (by decide)),
        if_neg (hno PB (bytesOf "PB") (by decide) (by decide)),
        if_neg (hno TB (bytesOf "TB") (by decide) (by decide)),
        if_neg (hno GB (bytesOf "GB") (by decide) (by decide)),
        if_neg (hno MB (bytesOf "MB") (by decide) (by decide)), if_pos hU]
      exact ⟨rfl, rfl⟩
  · have hno : ∀ V n, (V, n) ∈ unitNames → ¬ q % V = 0 := fun V n hV h0 =>
      hnone (V, n) hV (Nat.dvd_of_mod_eq_zero h0)
    unfold String
    rw [if_neg hq, if_neg (hno EB (bytesOf "EB") (by decide)),
      if_neg (hno PB (bytesOf "PB") (by decide)), if_neg (hno TB (bytesOf "TB") (by decide)),
      if_neg (hno GB (bytesOf "GB") (by decide)), if_neg (hno MB (bytesOf "MB") (by decide)),
      if_neg (hno KB (bytesOf "KB") (by decide))]
  · by_cases hq : q = 0
    · rw [hq]
      decide
    · obtain ⟨b, name, _, h1, _, _, _, h2⟩ := String_shape q hq
      rw [h1]
      intro hmem
      rcases List.mem_append.mp hmem with hm | hm
      · have := (formatUint_spec (q / 1024 ^ b)).1 46 hm
        omega
      · exact h2 hm

/-- C11 at `2048 * MB`, `B + KB`, `MB + 20 * KB` and `400 * TB`. -/
theorem C11_canonical_string_witness :
    String (2048 * MB) = bytesOf "2GB" ∧ String (B + KB) = bytesOf "1025B"
      ∧ String (MB + 20 * KB) = bytesOf "1044KB" ∧ String (400 * TB) = bytesOf "400TB"
      ∧ MarshalText (400 * TB) = (bytesOf "400TB", none) :=
  ⟨(((C11_canonical_string (2048 * MB)).2.1 (by decide) GB (bytesOf "GB") (by decide)
        (by decide) (by decide)).1).trans (by decide),
   ((C11_canonical_string (B + KB)).2.2.1 (by decide) (by decide)).trans (by decide),
   by decide, by decide, by decide⟩

/-- C12. Unit case-insensitivity except the bit rule: for a numeric prefix `p`
(digits and decimal points, not empty) and two remainders `u1`, `u2` that do
not start with a digit or a decimal point, if their unit tokens (`u1` and `u2`
themselves when they have no white space at their ends) are equal after
lowercasing and neither is one of `Kb, Mb, Gb, Tb, Pb, Eb`, then
`Parse (p ++ u1)` and `Parse (p ++ u2)` return the same quantity and the same
kind of outcome. Equal after lowercasing: the two lower cases are the same
text, or, for tokens with letters outside ASCII whose lower case `toLower` does
not spell out, neither lower case is ASCII. -/
theorem C12_case_insensitive (conv : F64 → Nat) (p u1 u2 : List Nat) (hp : IsNumeric p)
    (hne : p ≠ []) (h1 : EndsNumber u1) (h2 : EndsNumber u2)
    (hlow : toLower (trimSpace u1) = toLower (trimSpace u2)
      ∨ (¬ IsAscii (toLower (trimSpace u1)) ∧ ¬ IsAscii (toLower (trimSpace u2))))
    (hb1 : trimSpace u1 ∉ bitUnits) (hb2 : trimSpace u2 ∉ bitUnits) :
    outcome (Parse conv (p ++ u1)) = outcome (Parse conv (p ++ u2)) := by
  apply outcome_after_prefix conv p u1 u2 hp hne h1 h2
  · rw [(isBitUnit_false_iff _).mpr hb1, (isBitUnit_false_iff _).mpr hb2]
  · rcases hlow with h | ⟨ha, hb⟩
    · rw [h]
    · rw [unitMultiplier_nonAscii ha, unitMultiplier_nonAscii hb]

/-- C12 at `5gb` and `5GB`, which both give five times `GB`, next to `5Gb`,
which fails as a bit unit; and at `5 kiB` and `5 KIB `. -/
theorem C12_case_insensitive_witness :
    outcome (Parse convZero (bytesOf "5gb")) = outcome (Parse convZero (bytesOf "5GB"))
      ∧ Parse convZero (bytesOf "5GB") = (5 * GB, none)
      ∧ outcome (Parse convZero (bytesOf "5Gb")) = (0, some Cause.ErrBits)
      ∧ trimSpace (bytesOf "gb") = bytesOf "gb" ∧ trimSpace (bytesOf "GB") = bytesOf "GB"
      ∧ outcome (Parse convZero (bytesOf "5 kiB"))
        = outcome (Parse convZero (bytesOf "5 KIB ")) :=
  ⟨C12_case_insensitive convZero (bytesOf "5") (bytesOf "gb") (bytesOf "GB") (by decide)
      (by decide) (by decide) (by decide) (by decide) (by decide) (by decide),
   by decide, by decide, by decide, by decide,
   C12_case_insensitive convZero (bytesOf "5") (bytesOf " kiB") (bytesOf " KIB ") (by decide)
      (by decide) (by decide) (by decide) (by decide) (by decide) (by decide)⟩

/-- C13. Whitespace tolerance: for a numeric prefix `p` (digits and decimal
points, not empty), a text `u` that is empty or does not start with a digit or
a decimal point, and two runs `w1`, `w2` of ASCII white space,
`Parse (p ++ w1 ++ u ++ w2)` returns the same quantity and the same kind of
outcome as `Parse (p ++ u)`. -/
theorem C13_whitespace (conv : F64 → Nat) (p w1 u w2 : List Nat) (hp : IsNumeric p)
    (hne : p ≠ []) (hw1 : IsAsciiSpaces w1) (hw2 : IsAsciiSpaces w2) (hu : EndsNumber u) :
    outcome (Parse conv (p ++ w1 ++ u ++ w2)) = outcome (Parse conv (p ++ u)) := by
  have hassoc : p ++ w1 ++ u ++ w2 = p ++ (w1 ++ (u ++ w2)) := by simp
  have htrim : trimSpace (w1 ++ (u ++ w2)) = trimSpace u := by
    rw [trimSpace_spaces_append w1 _ hw1, trimSpace_append_spaces u w2 hw2]
  rw [hassoc]
  apply outcome_after_prefix conv p _ u hp hne
    (endsNumber_spaces_append w1 _ hw1 (endsNumber_append_spaces u w2 hw2 hu)) hu
  · rw [htrim]
  · rw [htrim]

/-- C13 at `5 GB`, `20480 G` and `10 kB `, next to `5GB`, `20480G` and
`10kB`. -/
theorem C13_whitespace_witness :
    outcome (Parse convZero (bytesOf "5 GB")) = outcome (Parse convZero (bytesOf "5GB"))
      ∧ outcome (Parse convZero (bytesOf "20480 G"))
        = outcome (Parse convZero (bytesOf "20480G"))
      ∧ outcome (Parse convZero (bytesOf "10 kB "))
        = outcome (Parse convZero (bytesOf "10kB"))
      ∧ Parse convZero (bytesOf "10 kB ") = (10 * KB, none) :=
  ⟨C13_whitespace convZero (bytesOf "5") (bytesOf " ") (bytesOf "GB") [] (by decide)
      (by decide) (by decide) (by decide) (by decide),
   C13_whitespace convZero (bytesOf "20480") (bytesOf " ") (bytesOf "G") [] (by decide)
      (by decide) (by decide) (by decide) (by decide),
   C13_whitespace convZero (bytesOf "10") (bytesOf " ") (bytesOf "kB") (bytesOf " ")
      (by decide) (by decide) (by decide) (by decide) (by decide),
   by decide⟩

/-- C14. Error outcomes: for every input `t` and every previous value `b` of
the receiver, if `UnmarshalText` (or `Parse`) returns an error then that error
has `Func` equal to `"UnmarshalText"` and `Num` equal to the whole input `t`,
and either its cause is `ErrRange` and the quantity written is `2 ^ 64 - 1`, or
its cause is `ErrSyntax` and the quantity is `0`, or its cause is `ErrBits` and
the quantity is `0`. -/
theorem C14_error_outcomes (conv : F64 → Nat) (b : ByteSize) (t : List Nat) (e : NumError)
    (h : (UnmarshalText conv b t).2 = some e) :
    e.Func = "UnmarshalText" ∧ e.Num = t
      ∧ ((e.Err = Cause.ErrRange ∧ (UnmarshalText conv b t).1 = 2 ^ 64 - 1)
        ∨ (e.Err = Cause.ErrSyntax ∧ (UnmarshalText conv b t).1 = 0)
        ∨ (e.Err = Cause.ErrBits ∧ (UnmarshalText conv b t).1 = 0)) := by
  rcases UnmarshalText_cases conv b t with h1 | h1 | h1 | h1
  · rw [h1, Overflow_eq] at h ⊢
    cases h
    exact ⟨rfl, rfl, Or.inl ⟨rfl, rfl⟩⟩
  · rw [h1, SyntaxError_eq] at h ⊢
    cases h
    exact ⟨rfl, rfl, Or.inr (Or.inl ⟨rfl, rfl⟩)⟩
  · rw [h1, BitsError_eq] at h ⊢
    cases h
    exact ⟨rfl, rfl, Or.inr (Or.inr ⟨rfl, rfl⟩)⟩
  · rw [h1] at h
    cases h

/-- C14 at the input `50 eB` with the receiver holding `7` before the call,
and through `Parse` at the input `10 Mb`. -/
theorem C14_error_outcomes_witness :
    (UnmarshalText convZero 7 (bytesOf "50 eB")).2
        = some ⟨"UnmarshalText", bytesOf "50 eB", Cause.ErrRange⟩
      ∧ (UnmarshalText convZero 7 (bytesOf "50 eB")).1 = 2 ^ 64 - 1
      ∧ (Parse convZero (bytesOf "10 Mb")).2
        = some ⟨"UnmarshalText", bytesOf "10 Mb", Cause.ErrBits⟩
      ∧ (Parse convZero (bytesOf "10 Mb")).1 = 0 := by
  have h1 : (UnmarshalText convZero 7 (bytesOf "50 eB")).2
      = some ⟨"UnmarshalText", bytesOf "50 eB", Cause.ErrRange⟩ := by decide
  have h2 : (UnmarshalText convZero 0 (bytesOf "10 Mb")).2
      = some ⟨"UnmarshalText", bytesOf "10 Mb", Cause.ErrBits⟩ := by decide
  have k1 := C14_error_outcomes convZero 7 (bytesOf "50 eB") _ h1
  have k2 := C14_error_outcomes convZero 0 (bytesOf "10 Mb") _ h2
  refine ⟨h1, ?_, h2, ?_⟩
  · rcases k1.2.2 with k | k | k
    · exact k.2
    · exact absurd k.1 (by decide)
    · exact absurd k.1 (by decide)
  · rcases k2.2.2 with k | k | k
    · exact absurd k.1 (by decide)
    · exact absurd k.1 (by decide)
    · exact k.2

/-- C15. Shortest exact representation. For every quantity `q`:
`String q` is itself a text `<N><UNIT>` denoting `q`, namely the decimal
rendering of `q / U` followed by the name of `U`, for a unit `U` among
`B, KB, MB, GB, TB, PB, EB` that divides `q`; for every unit `U` among these
that divides `q`, the decimal rendering of `q / U` is a run of digits whose
value times `U` is `q`, the text made of it and the name of `U` is read back
by `UnmarshalText` as `q` without error when `q` is below `2 ^ 64`, and that
text is at least as long as `String q`; and every text made of a non-empty
run of digits `N`, leading zeros allowed, and the name of a unit `U`, with
the value of `N` times `U` equal to `q`, is at least as long as `String q`. -/
theorem C15_shortest (q : ByteSize) :
    (∃ U name, (U, name) ∈ (1, bytesOf "B") :: unitNames ∧ U ∣ q
        ∧ String q = formatUint (q / U) ++ name)
      ∧ (∀ U name, (U, name) ∈ (1, bytesOf "B") :: unitNames → U ∣ q →
          IsDigits (formatUint (q / U)) ∧ digitsValue (formatUint (q / U)) * U = q
            ∧ (q < 2 ^ 64 → ∀ (conv : F64 → Nat) (b : ByteSize),
                UnmarshalText conv b (formatUint (q / U) ++ name) = (q, none))
            ∧ (String q).length ≤ (formatUint (q / U) ++ name).length)
      ∧ (∀ N U name, (U, name) ∈ (1, bytesOf "B") :: unitNames → IsDigits N → N ≠ [] →
          digitsValue N * U = q → (String q).length ≤ (N ++ name).length) := by
  have key : ∀ U name, (U, name) ∈ (1, bytesOf "B") :: unitNames → U ∣ q →
      (String q).length ≤ (formatUint (q / U) ++ name).length := by
    intro U name hmem hdvd
    obtain ⟨a, ha, rfl, hname⟩ := unit_index hmem
    rw [List.length_append]
    have hlen := (formatUint_bounds (q / 1024 ^ a)).1
    by_cases hq : q = 0
    · subst hq
      have h0 : (String 0).length = 2 := by decide
      rw [h0]
      split_ifs at hname <;> omega
    · obtain ⟨b, name1, _, h1, h2, h3, h4, _⟩ := String_shape q hq
      rw [h1, List.length_append]
      have hab : a ≤ b := h3 a ha hdvd
      rcases Nat.lt_or_eq_of_le hab with hlt | heq
      · have h5 := formatUint_length_units q a b hq hlt h2
        split_ifs at hname h4 <;> omega
      · subst heq
        rw [hname, h4]
  refine ⟨?_, ?_, ?_⟩
  · unfold String
    split_ifs with h0 h1 h2 h3 h4 h5 h6
    · subst h0
      exact ⟨1, bytesOf "B", by decide, Nat.one_dvd 0, by decide⟩
    · exact ⟨EB, bytesOf "EB", by decide, Nat.dvd_of_mod_eq_zero h1, rfl⟩
    · exact ⟨PB, bytesOf "PB", by decide, Nat.dvd_of_mod_eq_zero h2, rfl⟩
    · exact ⟨TB, bytesOf "TB", by decide, Nat.dvd_of_mod_eq_zero h3, rfl⟩
    · exact ⟨GB, bytesOf "GB", by decide, Nat.dvd_of_mod_eq_zero h4, rfl⟩
    · exact ⟨MB, bytesOf "MB", by decide, Nat.dvd_of_mod_eq_zero h5, rfl⟩
    · exact ⟨KB, bytesOf "KB", by decide, Nat.dvd_of_mod_eq_zero h6, rfl⟩
    · exact ⟨1, bytesOf "B", by decide, Nat.one_dvd q, by rw [Nat.div_one]⟩
  · intro U name hmem hdvd
    obtain ⟨d1, _, d3⟩ := formatUint_spec (q / U)
    obtain ⟨r1, r2, r3⟩ := unit_name_read hmem
    refine ⟨d1, by rw [d3, Nat.div_mul_cancel hdvd], fun hq conv b => ?_, key U name hmem hdvd⟩
    exact UnmarshalText_formatted conv b q U name hq (Nat.mod_eq_zero_of_dvd hdvd) r1 r2 r3
  · intro N U name hmem hd hne hval
    have hdvd : U ∣ q := ⟨digitsValue N, by rw [← hval, Nat.mul_comm]⟩
    have hU : 0 < U := by
      obtain ⟨a, _, rfl, _⟩ := unit_index hmem
      exact Nat.pow_pos (by norm_num)
    have hdiv : q / U = digitsValue N := by
      rw [← hval]; exact Nat.mul_div_cancel _ hU
    have h1 := key U name hmem hdvd
    have h2 := formatUint_length_le N hd hne
    rw [hdiv, List.length_append] at h1
    rw [List.length_append]
    omega

/-- C15 at `2048 * MB`, whose canonical text is `2GB`: it is not longer than
`2048MB`, `2097152KB`, `2147483648B` and `0002GB`, and `2048MB` is read back
as `2048 * MB`. -/
theorem C15_shortest_witness :
    String (2048 * MB) = bytesOf "2GB"
      ∧ (String (2048 * MB)).length ≤ (bytesOf "2048MB").length
      ∧ (String (2048 * MB)).length ≤ (bytesOf "2097152KB").length
      ∧ (String (2048 * MB)).length ≤ (bytesOf "2147483648B").length
      ∧ (String (2048 * MB)).length ≤ (bytesOf "0002GB").length
      ∧ ParsesTo (bytesOf "2048MB") (2048 * MB, none) :=
  ⟨by decide,
   Nat.le_trans ((C15_shortest (2048 * MB)).2.1 MB (bytesOf "MB") (by decide)
      (by decide)).2.2.2 (by decide),
   Nat.le_trans ((C15_shortest (2048 * MB)).2.1 KB (bytesOf "KB") (by decide)
      (by decide)).2.2.2 (by decide),
   Nat.le_trans ((C15_shortest (2048 * MB)).2.1 1 (bytesOf "B") (by decide)
      (by decide)).2.2.2 (by decide),
   (C15_shortest (2048 * MB)).2.2 (bytesOf "0002") GB (bytesOf "GB") (by decide)
      (by decide) (by decide) (by decide),
   fun conv => (congrArg (Parse conv)
      (by decide : bytesOf "2048MB" = formatUint (2048 * MB / MB) ++ bytesOf "MB")).trans
      (((C15_shortest (2048 * MB)).2.1 MB (bytesOf "MB") (by decide)
        (by decide)).2.2.1 (by decide) conv 0)⟩

/-- C16. Human-readable fallback: for every quantity `q` not exceeding 1024,
1024 included, `HumanReadable q` is the decimal rendering of `q` followed by
` B`, with no decimal point in it; and `HR q` is `HumanReadable q` for every
`q`. -/
theorem C16_human_readable_fallback :
    (∀ q : ByteSize, q ≤ 1024 →
        HumanReadable q = formatUint q ++ bytesOf " B" ∧ 46 ∉ HumanReadable q)
      ∧ ∀ q : ByteSize, HR q = HumanReadable q := by
  refine ⟨fun q hq => ?_, fun q => rfl⟩
  have hK : ¬ q > KB := Nat.not_lt.mpr (Nat.le_trans hq (by decide))
  have hM : ¬ q > MB := Nat.not_lt.mpr (Nat.le_trans hq (by decide))
  have hG : ¬ q > GB := Nat.not_lt.mpr (Nat.le_trans hq (by decide))
  have hT : ¬ q > TB := Nat.not_lt.mpr (Nat.le_trans hq (by decide))
  have hP : ¬ q > PB := Nat.not_lt.mpr (Nat.le_trans hq (by decide))
  have hE : ¬ q > EB := Nat.not_lt.mpr (Nat.le_trans hq (by decide))
  have heq : HumanReadable q = formatUint q ++ bytesOf " B" := by
    unfold HumanReadable
    simp only [hK, hM, hG, hT, hP, hE, if_false]
  refine ⟨heq, ?_⟩
  rw [heq]
  intro hmem
  rcases List.mem_append.mp hmem with hm | hm
  · have := (formatUint_spec q).1 46 hm
    omega
  · revert hm
    decide

/-- C16 at 1024 and at 0: `1024 B` and `0 B`. -/
theorem C16_human_readable_fallback_witness :
    HumanReadable 1024 = bytesOf "1024 B" ∧ HR 1024 = bytesOf "1024 B"
      ∧ HumanReadable 0 = bytesOf "0 B" :=
  ⟨(C16_human_readable_fallback.1 1024 (by decide)).1.trans (by decide),
   (C16_human_readable_fallback.2 1024).trans (by decide), by decide⟩

/-- C17. The convenience wrappers add no logic: `Parse t` is what
`UnmarshalText t` produces on a zero receiver; `ParseString s` is `Parse` of
the bytes of `s` and `MustParseString s` is `MustParse` of the bytes of `s`;
`MustParse t` panics, with the error of `Parse t`, exactly when `Parse t`
returns an error, and otherwise returns the quantity that `Parse t` returns. -/
theorem C17_wrappers (conv : F64 → Nat) (t s : List Nat) :
    Parse conv t = UnmarshalText conv 0 t
      ∧ ParseString conv s = Parse conv s
      ∧ MustParseString conv s = MustParse conv s
      ∧ ((∃ e, MustParse conv t = MustResult.panic e) ↔ (Parse conv t).2 ≠ none)
      ∧ (∀ e, (Parse conv t).2 = some e → MustParse conv t = MustResult.panic e)
      ∧ ((Parse conv t).2 = none → MustParse conv t = MustResult.value (Parse conv t).1) := by
  refine ⟨rfl, rfl, rfl, ?_, ?_, ?_⟩
  · unfold MustParse
    rcases hp : Parse conv t with ⟨v, _ | e⟩
    · simp
    · simp
  · intro e he
    unfold MustParse
    rcases hp : Parse conv t with ⟨v, _ | e1⟩
    · rw [hp] at he; cases he
    · rw [hp] at he; cases he; rfl
  · intro he
    unfold MustParse
    rcases hp : Parse conv t with ⟨v, _ | e1⟩
    · rfl
    · rw [hp] at he; cases he

/-- C17 at the inputs `10 MB`, which `MustParse` returns, and `10 Mb`, on which
it panics. -/
theorem C17_wrappers_witness :
    MustParse convZero (bytesOf "10 MB") = MustResult.value (10 * MB)
      ∧ MustParseString convZero (bytesOf "10 Mb")
        = MustResult.panic ⟨"UnmarshalText", bytesOf "10 Mb", Cause.ErrBits⟩ :=
  ⟨((C17_wrappers convZero (bytesOf "10 MB") []).2.2.2.2.2 (by decide)).trans (by decide),
   by decide⟩

/-- C18 fails on the code. The input `1.` followed by twenty zeros has a
fractional part of 20 digits, and `10 ^ 20` exceeds `2 ^ 64 - 1`: `power` wraps
to `7766279631452241920` and `Parse` returns the quantity `1` with no error.
With 63 fractional digits `power` has wrapped to `2 ^ 63`: `0.` followed by 62
zeros and `9 EB` is read as `1` byte, with no error. With 64 fractional digits
`power` has wrapped to `0` and the quotient is not a number: `1.` followed by
64 zeros is read as `1` where the conversion of not-a-number gives `0`, and as
`2 ^ 63 + 1` where it gives `2 ^ 63`, without error in both cases. -/
theorem C18_power_wraps :
    ParsesTo (bytesOf "1.00000000000000000000") (1, none)
      ∧ 2 ^ 64 - 1 < 10 ^ 20
      ∧ 10 ^ 20 % 2 ^ 64 = 7766279631452241920
      ∧ ParsesTo
          (bytesOf "0.000000000000000000000000000000000000000000000000000000000000009 EB")
          (1, none)
      ∧ Parse convZero
          (bytesOf "1.0000000000000000000000000000000000000000000000000000000000000000")
          = (1, none)
      ∧ Parse (fun _ => 2 ^ 63)
          (bytesOf "1.0000000000000000000000000000000000000000000000000000000000000000")
          = (2 ^ 63 + 1, none) := by
  refine ⟨fun conv => ?_, by decide, by decide, fun conv => ?_, by decide, by decide⟩
  · exact UnmarshalText_eval conv 0 _ ⟨1, true, 0, 7766279631452241920, 22⟩ [] 1 0 _
      (by decide) (by decide) (by decide) (by decide) (by decide) rfl (by decide)
  · exact UnmarshalText_eval conv 0 _ ⟨0, true, 9, 9223372036854775808, 65⟩
      (bytesOf "EB") EB 1 _
      (by decide) (by decide) (by decide) (by decide) (by decide) rfl (by decide)

/-- C19. Totality of the parser: for every text `t` and every previous value
of the receiver, `UnmarshalText` run with the checks of the runtime (the bounds
of `t[i]` and of `t[i:]`, the divisor of the integer division) and with at most
`len(t)` iterations of the scan loop returns normally, with the result of
`UnmarshalText`: no panic, no more than `len(t)` iterations. In particular
the scan loop ends within `len(t)` iterations, the index it leaves is at most
`len(t)`, and every unit multiplier is at least `1`. The call ends in one of
four ways: no error, `2 ^ 64 - 1` with `ErrRange`, `0` with `ErrSyntax`, `0`
with `ErrBits`. -/
theorem C19_totality (conv : F64 → Nat) (b : ByteSize) (t : List Nat) :
    UnmarshalTextAt conv b t t.length = Run.ok (UnmarshalText conv b t)
      ∧ parseLoopAt t t.length scanStart = Run.ok (parseLoop t scanStart)
      ∧ (∀ st, parseLoop t scanStart = LoopExit.done st → st.i ≤ t.length)
      ∧ (∀ u m, unitMultiplier u = some m → 1 ≤ m)
      ∧ ((UnmarshalText conv b t).2 = none
        ∨ UnmarshalText conv b t
            = (2 ^ 64 - 1, some ⟨"UnmarshalText", t, Cause.ErrRange⟩)
        ∨ UnmarshalText conv b t = (0, some ⟨"UnmarshalText", t, Cause.ErrSyntax⟩)
        ∨ UnmarshalText conv b t = (0, some ⟨"UnmarshalText", t, Cause.ErrBits⟩)) := by
  refine ⟨UnmarshalTextAt_eq conv b t, parseLoopAt_eq t t scanStart rfl ?_, fun st h => ?_,
    fun u m h => ?_, ?_⟩
  · show 0 + t.length = t.length
    omega
  · have h1 := (parseLoop_index t scanStart st h).2
    have h2 : scanStart.i = 0 := rfl
    omega
  · exact unitMultiplier_pos h
  · rcases UnmarshalText_cases conv b t with h | h | h | h
    · exact Or.inr (Or.inl h)
    · exact Or.inr (Or.inr (Or.inl h))
    · exact Or.inr (Or.inr (Or.inr h))
    · exact Or.inl h

/-- C19 at the input `10.5 MB`: seven iterations are allowed and four are
made; with three the loop would not be finished. At the empty input no
iteration is needed. -/
theorem C19_totality_witness :
    UnmarshalTextAt convZero 0 (bytesOf "10.5 MB") 7 = Run.ok (11010048, none)
      ∧ parseLoopAt (bytesOf "10.5 MB") 7 scanStart
        = Run.ok (LoopExit.done ⟨10, true, 5, 10, 4⟩)
      ∧ parseLoopAt (bytesOf "10.5 MB") 3 scanStart = Run.outOfFuel
      ∧ UnmarshalTextAt convZero 0 [] 0 = Run.ok (0, none) :=
  ⟨(C19_totality convZero 0 (bytesOf "10.5 MB")).1.trans (by decide),
   (C19_totality convZero 0 (bytesOf "10.5 MB")).2.1.trans (by decide), by decide,
   (C19_totality convZero 0 []).1.trans (by decide)⟩

/-- C20. Error precedence of digit overflow: for every input that begins with
a run of decimal digits whose value exceeds `2 ^ 64 - 1`, `Parse` returns the
quantity `2 ^ 64 - 1` and an error whose cause is `strconv.ErrRange`, whatever
bytes follow the run. -/
theorem C20_digit_overflow_first (conv : F64 → Nat) (d rest : List Nat)
    (hd : IsDigits d) (hbig : 2 ^ 64 - 1 < digitsValue d) :
    Parse conv (d ++ rest)
      = (2 ^ 64 - 1, some ⟨"UnmarshalText", d ++ rest, Cause.ErrRange⟩) := by
  rw [← Overflow_eq]
  exact UnmarshalText_loop_overflow conv 0 _
    (parseLoop_number_overflow d rest hd (by omega))

/-- C20 at `18446744073709551616` followed by a second decimal point, by an
unknown unit and by the bit unit `Mb`. -/
theorem C20_digit_overflow_first_witness :
    Parse convZero (bytesOf "18446744073709551616.5.5")
        = (2 ^ 64 - 1, some ⟨"UnmarshalText", bytesOf "18446744073709551616.5.5",
            Cause.ErrRange⟩)
      ∧ Parse convZero (bytesOf "18446744073709551616 xyz")
        = (2 ^ 64 - 1, some ⟨"UnmarshalText", bytesOf "18446744073709551616 xyz",
            Cause.ErrRange⟩)
      ∧ Parse convZero (bytesOf "18446744073709551616 Mb")
        = (2 ^ 64 - 1, some ⟨"UnmarshalText", bytesOf "18446744073709551616 Mb",
            Cause.ErrRange⟩) :=
  ⟨C20_digit_overflow_first convZero (bytesOf "18446744073709551616") (bytesOf ".5.5")
      (by decide) (by decide),
   C20_digit_overflow_first convZero (bytesOf "18446744073709551616") (bytesOf " xyz")
      (by decide) (by decide),
   C20_digit_overflow_first convZero (bytesOf "18446744073709551616") (bytesOf " Mb")
      (by decide) (by decide)⟩

end Datasize
